import Mathlib

/-!
Verification of the S3MP mirror-path synchronization core.

The Python sources are shallowly embedded: Python strings are modelled as
lists of characters (`Str`), the S3 object store as a list of objects, the
paginated `list_objects_v2` API as a pure function over that list, and
fallible Python code (code that can raise) as `Option`/`Except` values.
Every definition follows the corresponding function in the repository
(`S3MP/keys.py`, `S3MP/utils/s3_utils.py`, `S3MP/mirror_path.py`,
`S3MP/prefix_queries.py`, `S3MP/multipart_uploads.py`).
-/

deriving instance DecidableEq for Except

namespace S3MP

/-- A Python `str` modelled as a list of characters. -/
abbrev Str := List Char

/-- Python `s.split("/")`: split on every slash, keeping empty components
(`"".split("/") == [""]`, `"a//b".split("/") == ["a","","b"]`). -/
def splitSlash : Str → List Str
  | [] => [[]]
  | c :: cs =>
    match splitSlash cs with
    | [] => [[c]]
    | s :: ss => if c = '/' then [] :: s :: ss else (c :: s) :: ss

/-- Python `"/".join(parts)`. -/
def joinSlash : List Str → Str
  | [] => []
  | [p] => p
  | p :: ps => p ++ '/' :: joinSlash ps

theorem splitSlash_ne_nil (s : Str) : splitSlash s ≠ [] := by
  cases s with
  | nil => simp [splitSlash]
  | cons c cs =>
    simp only [splitSlash]
    cases h : splitSlash cs with
    | nil => simp
    | cons s ss =>
      by_cases hc : c = '/' <;> simp [hc]

theorem splitSlash_no_slash (p : Str) (hp : '/' ∉ p) : splitSlash p = [p] := by
  induction p with
  | nil => rfl
  | cons c cs ih =>
    simp only [List.mem_cons, not_or] at hp
    simp only [splitSlash, ih hp.2]
    have : c ≠ '/' := fun h => hp.1 h.symm
    simp [this]

theorem splitSlash_append_slash (p t : Str) (hp : '/' ∉ p) :
    splitSlash (p ++ '/' :: t) = p :: splitSlash t := by
  induction p with
  | nil =>
    simp only [List.nil_append, splitSlash]
    cases h : splitSlash t with
    | nil => exact absurd h (splitSlash_ne_nil t)
    | cons s ss => simp
  | cons c cs ih =>
    simp only [List.mem_cons, not_or] at hp
    rw [List.cons_append, splitSlash, ih hp.2]
    have : c ≠ '/' := fun h => hp.1 h.symm
    simp [this]

/-- Splitting undoes joining as long as no component contains a slash. -/
theorem splitSlash_joinSlash (parts : List Str) (hne : parts ≠ [])
    (h : ∀ p ∈ parts, '/' ∉ p) : splitSlash (joinSlash parts) = parts := by
  induction parts with
  | nil => exact absurd rfl hne
  | cons p ps ih =>
    cases ps with
    | nil =>
      simp only [joinSlash]
      exact splitSlash_no_slash p (h p (List.mem_cons_self _ _))
    | cons q qs =>
      have hjoin : joinSlash (p :: q :: qs) = p ++ '/' :: joinSlash (q :: qs) := rfl
      rw [hjoin, splitSlash_append_slash p _ (h p (List.mem_cons_self _ _))]
      rw [ih (by simp) (fun x hx => h x (List.mem_cons_of_mem _ hx))]

example : splitSlash ("a//b".data) = ["a".data, [], "b".data] := by decide
example : splitSlash ("".data) = [[]] := by decide
example : joinSlash ["a".data, [], "b".data] = "a//b".data := by decide

/-! ## `S3MP/keys.py`: the `KeySegment` data model -/

/-- Model of `KeySegment` from `S3MP/keys.py`: depth, optional name (`None` means
unconstrained), file flag and optional substring filter. -/
structure KeySegment where
  depth : Nat
  name : Option Str := none
  isFile : Bool := false
  incompleteName : Option Str := none
  deriving DecidableEq, Repr

/-- One step of a stable insertion sort on `depth`, placing the new element
before the first strictly deeper element (so equal depths keep their original
relative order, as Python's stable `sorted(key=lambda x: x.depth)` does). -/
def insertByDepth (x : KeySegment) : List KeySegment → List KeySegment
  | [] => [x]
  | y :: ys => if x.depth ≤ y.depth then x :: y :: ys else y :: insertByDepth x ys

/-- Python `sorted(segments, key=lambda x: x.depth)` (stable). -/
def sortByDepth (l : List KeySegment) : List KeySegment := l.foldr insertByDepth []

theorem mem_insertByDepth (a x : KeySegment) (l : List KeySegment) :
    a ∈ insertByDepth x l ↔ a = x ∨ a ∈ l := by
  induction l with
  | nil => simp [insertByDepth]
  | cons y ys ih =>
    simp only [insertByDepth]
    by_cases h : x.depth ≤ y.depth
    · simp [h]
    · simp only [h, if_false, List.mem_cons, ih]
      tauto

theorem mem_sortByDepth (a : KeySegment) (l : List KeySegment) :
    a ∈ sortByDepth l ↔ a ∈ l := by
  induction l with
  | nil => simp [sortByDepth]
  | cons x xs ih =>
    have : sortByDepth (x :: xs) = insertByDepth x (sortByDepth xs) := rfl
    rw [this, mem_insertByDepth]
    simp only [List.mem_cons]
    rw [ih]

theorem length_insertByDepth (x : KeySegment) (l : List KeySegment) :
    (insertByDepth x l).length = l.length + 1 := by
  induction l with
  | nil => rfl
  | cons y ys ih =>
    simp only [insertByDepth]
    by_cases h : x.depth ≤ y.depth
    · simp [h]
    · simp [h, ih]

theorem sortByDepth_ne_nil (l : List KeySegment) (h : l ≠ []) : sortByDepth l ≠ [] := by
  cases l with
  | nil => exact absurd rfl h
  | cons x xs =>
    have : sortByDepth (x :: xs) = insertByDepth x (sortByDepth xs) := rfl
    rw [this]
    intro heq
    have := length_insertByDepth x (sortByDepth xs)
    rw [heq] at this
    simp at this

/-- Model of `build_s3_key` from `S3MP/keys.py`.  Sorts segments by depth, finds the
first depth gap, joins the names below it.  `none` models a raised exception:
`segments[-1]` raises `IndexError` on an empty list, and `"/".join` raises
`TypeError` if one of the joined names is Python `None`. -/
def build_s3_key (segments : List KeySegment) : Option (Str × Nat) :=
  match sortByDepth segments with
  | [] => none
  | s :: ss =>
    let sorted := s :: ss
    let maxDepth := (sorted.getLast (List.cons_ne_nil s ss)).depth
    let segDepths := sorted.map KeySegment.depth
    let emptyDepths := (List.range (maxDepth + 1)).filter (fun d => d ∉ segDepths)
    let depth := match emptyDepths with
      | [] => maxDepth + 1
      | d :: _ => d
    match (sorted.take depth).mapM KeySegment.name with
    | none => none
    | some names => some (joinSlash names, depth)

example : build_s3_key [⟨0, some ("a".data), false, none⟩, ⟨1, some ("b".data), false, none⟩]
    = some ("a/b".data, 2) := by decide
example : build_s3_key [⟨0, some ("a".data), false, none⟩, ⟨2, some ("c".data), false, none⟩]
    = some ("a".data, 1) := by decide

/-- C6 counterexample: on the empty segment list, `build_s3_key` raises
`IndexError` (`segments[-1]` on an empty list), modelled as `none`; it does
not return an empty key. -/
theorem build_s3_key_empty_raises : build_s3_key ([] : List KeySegment) = none := by rfl

/-- C6 (amended): for every nonempty segment list with no segment assigned at
depth 0, `build_s3_key` returns the empty key (and next depth 0) without
raising an error.  (The empty segment list instead raises `IndexError`.) -/
theorem build_s3_key_root_gap_empty_key (segments : List KeySegment)
    (hne : segments ≠ []) (h0 : ∀ s ∈ segments, s.depth ≠ 0) :
    build_s3_key segments = some ([], 0) := by
  unfold build_s3_key
  cases hs : sortByDepth segments with
  | nil => exact absurd hs (sortByDepth_ne_nil segments hne)
  | cons s ss =>
    simp only []
    have hzero : (0 : Nat) ∉ (s :: ss).map KeySegment.depth := by
      intro hd
      obtain ⟨x, hx, hxd⟩ := List.mem_map.mp hd
      exact h0 x ((mem_sortByDepth x segments).mp (hs ▸ hx)) hxd
    have hfilter : ∃ t, (List.range (((s :: ss).getLast (List.cons_ne_nil s ss)).depth + 1)).filter
        (fun d => decide (d ∉ (s :: ss).map KeySegment.depth)) = 0 :: t := by
      rw [List.range_succ_eq_map, List.filter_cons]
      simp only [hzero, decide_not, not_false_eq_true, decide_True, if_true]
      exact ⟨_, rfl⟩
    obtain ⟨t, ht⟩ := hfilter
    rw [ht]
    rfl

/-- Witness for `build_s3_key_root_gap_empty_key` at the concrete one-segment
list `[{depth 2, name "a"}]`. -/
theorem build_s3_key_root_gap_empty_key_witness :
    ([KeySegment.mk 2 (some ("a".data)) false none] ≠ []) ∧
      build_s3_key [KeySegment.mk 2 (some ("a".data)) false none] = some ([], 0) :=
  ⟨by decide, build_s3_key_root_gap_empty_key _ (by decide) (by decide)⟩

/-! ## `replace_key_segments` from `S3MP/keys.py` -/

/-- Helper for `stripTrailingEmpties`, working on the reversed list: drop
leading empty-string entries; `none` models the `IndexError` Python raises
when `key_segments[-1]` is evaluated on an emptied list. -/
def stripRev : List (Option Str) → Option (List (Option Str))
  | [] => none
  | x :: xs => if x = some [] then stripRev xs else some (x :: xs)

/-- The Python loop `while key_segments[-1] == "": key_segments.pop()`.
Entries are `Option Str` because Python may have stored a `None` name.
(`None == ""` is `False` in Python, so only `some []` entries are popped.) -/
def stripTrailingEmpties (l : List (Option Str)) : Option (List (Option Str)) :=
  (stripRev l.reverse).map List.reverse

/-- Helper for `collapseTrailingSlashes`, working on the reversed string:
the first entry is Python `ret[-1]` and the second is `ret[-2]`. -/
def collapseRev : Str → Option Str
  | [] => none
  | [_] => none
  | a :: b :: rest => if a = '/' ∧ b = '/' then collapseRev (b :: rest) else some (a :: b :: rest)

/-- The Python loop `while (ret[-2] == "/") and (ret[-1] == "/"): ret = ret[:-1]`.
Evaluating `ret[-2]` on a string of length < 2 raises `IndexError`, modelled
as `none`. -/
def collapseTrailingSlashes (r : Str) : Option Str :=
  (collapseRev r.reverse).map List.reverse

/-- One iteration of the `for segment in segments` loop of
`replace_key_segments`: append one empty placeholder if
`segment.depth + og_key_len - 1 >= len(key_segments)`, then assign
`key_segments[segment.depth] = segment.name` (an out-of-range assignment
raises `IndexError`, modelled as `none`). -/
def applySeg (ogLen : Nat) (cur : List (Option Str)) (seg : KeySegment) :
    Option (List (Option Str)) :=
  let cur' := if (seg.depth : Int) + ogLen - 1 ≥ cur.length then cur ++ [some []] else cur
  if seg.depth < cur'.length then some (cur'.set seg.depth seg.name) else none

/-- The whole `for segment in segments` loop. -/
def applySegs (ogLen : Nat) (cur : List (Option Str)) :
    List KeySegment → Option (List (Option Str))
  | [] => some cur
  | s :: rest =>
    match applySeg ogLen cur s with
    | none => none
    | some cur' => applySegs ogLen cur' rest

/-- Collect the stored names for `"/".join(key_segments)`: joining raises
`TypeError` (modelled `none`) as soon as one entry is Python `None`. -/
def seqOptions : List (Option Str) → Option (List Str)
  | [] => some []
  | none :: _ => none
  | some x :: rest => (seqOptions rest).map (fun xs => x :: xs)

/-- Model of `replace_key_segments` from `S3MP/keys.py`: split the key on `/`,
optionally truncate to `max_len`, overwrite positions by absolute depth
(appending empty placeholders), strip trailing empty segments, join, and
collapse a double trailing slash.  `none` models a raised exception
(`IndexError` on an out-of-range assignment or empty pop / short string,
`TypeError` when joining a `None` name). -/
def replace_key_segments (key : Str) (segments : List KeySegment)
    (maxLen : Option Nat) : Option Str :=
  let sorted := sortByDepth segments
  let ks0 : List (Option Str) := match maxLen with
    | none => (splitSlash key).map some
    | some m => ((splitSlash key).map some).take m
  (applySegs ks0.length ks0 sorted).bind fun written =>
    (stripTrailingEmpties written).bind fun stripped =>
      (seqOptions stripped).bind fun names =>
        collapseTrailingSlashes (joinSlash names)

example : replace_key_segments ("a/x".data) [⟨1, some ("b".data), false, none⟩] none
    = some ("a/b".data) := by decide
example : replace_key_segments ("a/b".data) [⟨2, some ("c".data), false, none⟩] none
    = some ("a/b/c".data) := by decide
example : replace_key_segments ("a".data) [⟨0, some ("a".data), false, none⟩] none
    = none := by decide

theorem joinSlash_splitSlash (s : Str) : joinSlash (splitSlash s) = s := by
  induction s with
  | nil => rfl
  | cons c cs ih =>
    simp only [splitSlash]
    cases h : splitSlash cs with
    | nil => exact absurd h (splitSlash_ne_nil cs)
    | cons p ps =>
      rw [h] at ih
      by_cases hc : c = '/'
      · subst hc
        simp only [if_true]
        show '/' :: joinSlash (p :: ps) = '/' :: cs
        rw [ih]
      · simp only [hc, if_false]
        cases ps with
        | nil =>
          show c :: p = c :: cs
          simpa [joinSlash] using ih
        | cons q qs =>
          show (c :: p) ++ '/' :: joinSlash (q :: qs) = c :: cs
          have : p ++ '/' :: joinSlash (q :: qs) = cs := ih
          simpa using this

theorem splitSlash_no_slash_mem (s : Str) (p : Str) (hp : p ∈ splitSlash s) : '/' ∉ p := by
  induction s generalizing p with
  | nil =>
    simp only [splitSlash, List.mem_singleton] at hp
    subst hp; simp
  | cons c cs ih =>
    simp only [splitSlash] at hp
    cases h : splitSlash cs with
    | nil => exact absurd h (splitSlash_ne_nil cs)
    | cons q qs =>
      rw [h] at hp
      by_cases hc : c = '/'
      · subst hc
        simp only [if_true, List.mem_cons] at hp
        rcases hp with rfl | rfl | hp
        · simp
        · exact ih p (h ▸ List.mem_cons_self p qs)
        · exact ih p (h ▸ List.mem_cons_of_mem q hp)
      · simp only [hc, if_false, List.mem_cons] at hp
        rcases hp with rfl | hp
        · have hq : '/' ∉ q := ih q (h ▸ List.mem_cons_self q qs)
          intro hmem
          rcases List.mem_cons.mp hmem with hce | hmem
          · exact hc hce.symm
          · exact hq hmem
        · exact ih p (h ▸ List.mem_cons_of_mem q hp)

theorem splitSlash_eq_single_empty (s : Str) (h : splitSlash s = [[]]) : s = [] := by
  cases s with
  | nil => rfl
  | cons c cs =>
    exfalso
    simp only [splitSlash] at h
    cases hq : splitSlash cs with
    | nil => exact splitSlash_ne_nil cs hq
    | cons q qs =>
      rw [hq] at h
      by_cases hc : c = '/' <;> simp [hc] at h

theorem getLast?_joinSlash (names : List Str) (p : Str)
    (h : names.getLast? = some p) (hp : p ≠ []) :
    (joinSlash names).getLast? = p.getLast? := by
  induction names with
  | nil => simp at h
  | cons q qs ih =>
    cases qs with
    | nil =>
      have hqp : q = p := by simpa using h
      subst hqp
      rfl
    | cons r rs =>
      rw [List.getLast?_cons_cons] at h
      have ihv := ih h
      have hj : joinSlash (q :: r :: rs) = q ++ '/' :: joinSlash (r :: rs) := rfl
      rw [hj, List.getLast?_append_cons]
      cases hz : joinSlash (r :: rs) with
      | nil =>
        exfalso
        rw [hz] at ihv
        rw [List.getLast?_eq_getLast_of_ne_nil hp] at ihv
        simp at ihv
      | cons y ys =>
        rw [hz] at ihv
        rw [List.getLast?_cons_cons]
        exact ihv

theorem seqOptions_map_some (xs : List Str) : seqOptions (xs.map some) = some xs := by
  induction xs with
  | nil => rfl
  | cons x l ih => simp [seqOptions, ih]

theorem seqOptions_eq_some (l : List (Option Str)) (xs : List Str)
    (h : seqOptions l = some xs) : l = xs.map some := by
  induction l generalizing xs with
  | nil =>
    simp only [seqOptions, Option.some.injEq] at h
    subst h; rfl
  | cons a l ih =>
    cases a with
    | none => simp [seqOptions] at h
    | some v =>
      simp only [seqOptions] at h
      cases hrest : seqOptions l with
      | none => rw [hrest] at h; simp at h
      | some vs =>
        rw [hrest] at h
        obtain rfl : v :: vs = xs := by simpa using h
        simp [ih vs hrest]

theorem stripRev_replicate_append (m : Nat) (t : List (Option Str)) :
    stripRev (List.replicate m (some []) ++ t) = stripRev t := by
  induction m with
  | zero => rfl
  | succ n ih => simpa [List.replicate_succ, stripRev] using ih

theorem stripRev_of_head_ne (t : List (Option Str)) (x : Option Str) (hx : x ≠ some []) :
    stripRev (x :: t) = some (x :: t) := by
  simp [stripRev, hx]

theorem stripRev_eq_some (t t' : List (Option Str)) (h : stripRev t = some t') :
    (∃ m, t = List.replicate m (some []) ++ t') ∧ t' ≠ [] ∧ t'.head? ≠ some (some []) := by
  induction t generalizing t' with
  | nil => simp [stripRev] at h
  | cons x xs ih =>
    by_cases hx : x = some []
    · subst hx
      have hstep : stripRev (some [] :: xs) = stripRev xs := by simp [stripRev]
      rw [hstep] at h
      obtain ⟨⟨m, hm⟩, hne, hhead⟩ := ih t' h
      exact ⟨⟨m + 1, by rw [List.replicate_succ, List.cons_append, hm]⟩, hne, hhead⟩
    · rw [stripRev_of_head_ne xs x hx] at h
      obtain rfl : x :: xs = t' := by simpa using h
      exact ⟨⟨0, rfl⟩, List.cons_ne_nil _ _, by simpa using hx⟩

theorem stripTrailingEmpties_append_replicate (l : List (Option Str)) (m : Nat) :
    stripTrailingEmpties (l ++ List.replicate m (some [])) = stripTrailingEmpties l := by
  unfold stripTrailingEmpties
  rw [List.reverse_append, List.reverse_replicate, stripRev_replicate_append]

theorem stripTrailingEmpties_of_getLast (l : List (Option Str)) (hne : l ≠ [])
    (hl : l.getLast? ≠ some (some [])) : stripTrailingEmpties l = some l := by
  unfold stripTrailingEmpties
  cases hr : l.reverse with
  | nil => exact absurd (by simpa using congrArg List.reverse hr) hne
  | cons x xs =>
    have hx : x ≠ some [] := by
      intro he
      apply hl
      rw [List.getLast?_eq_head?_reverse, hr, he]
      rfl
    rw [stripRev_of_head_ne xs x hx]
    simp only [Option.map_some']
    rw [← hr, List.reverse_reverse]

theorem stripTrailingEmpties_eq_some (l l' : List (Option Str))
    (h : stripTrailingEmpties l = some l') :
    (∃ m, l = l' ++ List.replicate m (some [])) ∧ l' ≠ [] ∧
      l'.getLast? ≠ some (some []) := by
  unfold stripTrailingEmpties at h
  cases hr : stripRev l.reverse with
  | none => rw [hr] at h; simp at h
  | some t' =>
    rw [hr] at h
    simp only [Option.map_some', Option.some.injEq] at h
    obtain ⟨⟨m, hm⟩, htne, hthead⟩ := stripRev_eq_some l.reverse t' hr
    subst h
    refine ⟨⟨m, ?_⟩, by simpa using htne, ?_⟩
    · have := congrArg List.reverse hm
      rw [List.reverse_reverse, List.reverse_append, List.reverse_replicate] at this
      exact this
    · rw [List.getLast?_eq_head?_reverse, List.reverse_reverse]
      exact hthead

theorem collapseTrailingSlashes_of_getLast (r : Str) (h2 : 2 ≤ r.length)
    (hl : r.getLast? ≠ some '/') : collapseTrailingSlashes r = some r := by
  unfold collapseTrailingSlashes
  cases hr : r.reverse with
  | nil =>
    exfalso
    have : r.length = 0 := by simpa using congrArg List.length hr
    omega
  | cons a t =>
    cases t with
    | nil =>
      exfalso
      have : r.length = 1 := by simpa using congrArg List.length hr
      omega
    | cons b t2 =>
      have ha : a ≠ '/' := by
        intro he
        apply hl
        rw [List.getLast?_eq_head?_reverse, hr, he]
        rfl
      have : collapseRev (a :: b :: t2) = some (a :: b :: t2) := by
        simp [collapseRev, ha]
      rw [this]
      simp only [Option.map_some']
      rw [← hr, List.reverse_reverse]

theorem collapseTrailingSlashes_eq_some (x r : Str) (hx : x.getLast? ≠ some '/')
    (h : collapseTrailingSlashes x = some r) : r = x ∧ 2 ≤ x.length := by
  unfold collapseTrailingSlashes at h
  cases hr : x.reverse with
  | nil => rw [hr] at h; simp [collapseRev] at h
  | cons a t =>
    cases t with
    | nil => rw [hr] at h; simp [collapseRev] at h
    | cons b t2 =>
      have ha : a ≠ '/' := by
        intro he
        apply hx
        rw [List.getLast?_eq_head?_reverse, hr, he]
        rfl
      rw [hr] at h
      have hc : collapseRev (a :: b :: t2) = some (a :: b :: t2) := by
        simp [collapseRev, ha]
      rw [hc] at h
      simp only [Option.map_some', Option.some.injEq] at h
      constructor
      · rw [← h, ← hr, List.reverse_reverse]
      · have : x.length = t2.length + 2 := by simpa using (congrArg List.length hr)
        omega

theorem applySeg_spec (ogLen : Nat) (cur : List (Option Str)) (seg : KeySegment)
    (cur1 : List (Option Str)) (h : applySeg ogLen cur seg = some cur1) :
    cur.length ≤ cur1.length ∧ cur1.length ≤ cur.length + 1 ∧
      seg.depth < cur1.length ∧ cur1[seg.depth]? = some seg.name ∧
      (∀ d, d ≠ seg.depth → d < cur.length → cur1[d]? = cur[d]?) ∧
      (∀ d, d ≠ seg.depth → cur.length ≤ d → d < cur1.length →
        cur1[d]? = some (some [])) := by
  unfold applySeg at h
  by_cases hif : (seg.depth : Int) + ogLen - 1 ≥ cur.length
  · rw [if_pos hif] at h
    by_cases hd : seg.depth < (cur ++ [some []]).length
    · rw [if_pos hd] at h
      obtain rfl : (cur ++ [some []]).set seg.depth seg.name = cur1 := Option.some.inj h
      have hlen : ((cur ++ [some []]).set seg.depth seg.name).length = cur.length + 1 := by
        rw [List.length_set, List.length_append]
        rfl
      have hd' : seg.depth < cur.length + 1 := by
        have := List.length_append cur [some []]
        simp only [List.length_singleton] at this
        omega
      refine ⟨by omega, by omega, by omega, ?_, ?_, ?_⟩
      · rw [List.getElem?_set_self (by simpa using hd)]
      · intro d hne hdlt
        rw [List.getElem?_set_ne (Ne.symm hne), List.getElem?_append_left hdlt]
      · intro d hne hge hlt
        rw [List.getElem?_set_ne (Ne.symm hne), List.getElem?_append_right hge]
        have hz : d - cur.length = 0 := by omega
        rw [hz]
        rfl
    · rw [if_neg hd] at h
      exact absurd h (by simp)
  · rw [if_neg hif] at h
    by_cases hd : seg.depth < cur.length
    · rw [if_pos hd] at h
      obtain rfl : cur.set seg.depth seg.name = cur1 := Option.some.inj h
      have hlen : (cur.set seg.depth seg.name).length = cur.length := List.length_set ..
      refine ⟨by omega, by omega, by omega, ?_, ?_, ?_⟩
      · rw [List.getElem?_set_self (by simpa using hd)]
      · intro d hne _
        rw [List.getElem?_set_ne (Ne.symm hne)]
      · intro d _ hge hlt
        omega
    · rw [if_neg hd] at h
      exact absurd h (by simp)

theorem applySegs_spec (ogLen : Nat) (segs : List KeySegment) :
    ∀ (cur fin : List (Option Str)), applySegs ogLen cur segs = some fin →
      cur.length ≤ fin.length ∧
      (∀ d, d < cur.length → (∀ s ∈ segs, s.depth ≠ d) → fin[d]? = cur[d]?) ∧
      (∀ s ∈ segs, s.depth < fin.length ∧
        fin[s.depth]? =
          ((segs.filter (fun t => t.depth = s.depth)).getLast?).map KeySegment.name) ∧
      (∀ d, cur.length ≤ d → d < fin.length → (∀ s ∈ segs, s.depth ≠ d) →
        fin[d]? = some (some [])) := by
  induction segs with
  | nil =>
    intro cur fin h
    obtain rfl : cur = fin := by simpa [applySegs] using h
    exact ⟨le_refl _, fun d _ _ => rfl, by simp, fun d h1 h2 _ => by omega⟩
  | cons s rest ih =>
    intro cur fin h
    unfold applySegs at h
    cases hap : applySeg ogLen cur s with
    | none => rw [hap] at h; exact absurd h (by simp)
    | some cur1 =>
      rw [hap] at h
      obtain ⟨hl1, hl2, hdlt, hdget, hkeep, hnew⟩ := applySeg_spec ogLen cur s cur1 hap
      obtain ⟨ihlen, ihkeep, ihwrite, ihnew⟩ := ih cur1 fin h
      refine ⟨le_trans hl1 ihlen, ?_, ?_, ?_⟩
      · intro d hdcur hno
        have hrestno : ∀ t ∈ rest, t.depth ≠ d :=
          fun t ht => hno t (List.mem_cons_of_mem s ht)
        have hsno : s.depth ≠ d := hno s (List.mem_cons_self s rest)
        rw [ihkeep d (lt_of_lt_of_le hdcur hl1) hrestno]
        exact hkeep d (fun he => hsno he.symm) hdcur
      · intro x hx
        by_cases hrx : ∃ y ∈ rest, y.depth = x.depth
        · obtain ⟨y, hy, hyd⟩ := hrx
          have := ihwrite y hy
          rw [hyd] at this
          obtain ⟨hylt, hyget⟩ := this
          refine ⟨hylt, ?_⟩
          rw [hyget]
          have hfne : rest.filter (fun t => t.depth = x.depth) ≠ [] := by
            intro hemp
            have : y ∈ rest.filter (fun t => t.depth = x.depth) :=
              List.mem_filter.mpr ⟨hy, by simp [hyd]⟩
            rw [hemp] at this
            simp at this
          rw [List.filter_cons]
          by_cases hsx : s.depth = x.depth
          · rw [if_pos (by simp [hsx])]
            cases hfr : rest.filter (fun t => t.depth = x.depth) with
            | nil => exact absurd hfr hfne
            | cons z zs => rw [List.getLast?_cons_cons]
          · rw [if_neg (by simp [hsx])]
        · push_neg at hrx
          have hxs : x = s := by
            rcases List.mem_cons.mp hx with rfl | hxm
            · rfl
            · exact absurd rfl (hrx x hxm)
          subst hxs
          have hfin : fin[x.depth]? = cur1[x.depth]? := by
            apply ihkeep x.depth hdlt
            intro t ht he
            exact hrx t ht he
          refine ⟨lt_of_lt_of_le hdlt ihlen, ?_⟩
          rw [hfin, hdget, List.filter_cons]
          have hfr : rest.filter (fun t => t.depth = x.depth) = [] := by
            rw [List.filter_eq_nil_iff]
            intro t ht
            simpa using hrx t ht
          rw [if_pos (by simp), hfr]
          rfl
      · intro d hge hlt hno
        have hrestno : ∀ t ∈ rest, t.depth ≠ d :=
          fun t ht => hno t (List.mem_cons_of_mem s ht)
        have hsno : s.depth ≠ d := hno s (List.mem_cons_self s rest)
        by_cases hd1 : d < cur1.length
        · rw [ihkeep d hd1 hrestno]
          exact hnew d (fun he => hsno he.symm) hge hd1
        · exact ihnew d (by omega) hlt hrestno

theorem applySegs_succeeds (ogLen : Nat) (segs : List KeySegment) :
    ∀ cur : List (Option Str), (∀ s ∈ segs, s.depth < cur.length) →
      ∃ fin, applySegs ogLen cur segs = some fin := by
  induction segs with
  | nil => exact fun cur _ => ⟨cur, rfl⟩
  | cons s rest ih =>
    intro cur hdep
    have h1 : s.depth < cur.length := hdep s (List.mem_cons_self s rest)
    have hstep : ∃ cur1, applySeg ogLen cur s = some cur1 ∧ cur.length ≤ cur1.length := by
      unfold applySeg
      by_cases hif : (s.depth : Int) + ogLen - 1 ≥ cur.length
      · have hd : s.depth < (cur ++ [some []]).length := by
          rw [List.length_append]
          simp only [List.length_singleton]
          omega
        refine ⟨(cur ++ [some []]).set s.depth s.name, ?_, ?_⟩
        · rw [if_pos hif, if_pos hd]
        · rw [List.length_set, List.length_append]
          simp
      · refine ⟨cur.set s.depth s.name, ?_, ?_⟩
        · rw [if_neg hif, if_pos h1]
        · rw [List.length_set]
    obtain ⟨cur1, hap, hlen⟩ := hstep
    obtain ⟨fin, hfin⟩ := ih cur1 (fun t ht => lt_of_lt_of_le (hdep t (List.mem_cons_of_mem s ht)) hlen)
    refine ⟨fin, ?_⟩
    unfold applySegs
    rw [hap]
    exact hfin

theorem replace_key_segments_none_eq (key : Str) (segments : List KeySegment) :
    replace_key_segments key segments none =
      (applySegs ((splitSlash key).map some).length ((splitSlash key).map some)
          (sortByDepth segments)).bind fun written =>
        (stripTrailingEmpties written).bind fun stripped =>
          (seqOptions stripped).bind fun names =>
            collapseTrailingSlashes (joinSlash names) := rfl

/-- C7 (amended), main part: `replace_key_segments` is idempotent as long as
every replacement name is a nonempty string containing no slash — if one
application succeeds with result `r`, applying the same segments to `r`
succeeds and returns `r` again.  (A name containing a slash breaks
idempotence, and an application can also raise `IndexError`, e.g. whenever
the resulting key is shorter than two characters.) -/
theorem replace_key_segments_idempotent (key : Str) (segments : List KeySegment) (r : Str)
    (hn : ∀ s ∈ segments, ∃ nm, s.name = some nm ∧ nm ≠ [] ∧ '/' ∉ nm)
    (h : replace_key_segments key segments none = some r) :
    replace_key_segments r segments none = some r := by
  have hnsorted : ∀ s ∈ sortByDepth segments, ∃ nm, s.name = some nm ∧ nm ≠ [] ∧ '/' ∉ nm :=
    fun s hs => hn s ((mem_sortByDepth s segments).mp hs)
  rw [replace_key_segments_none_eq] at h
  cases hA : applySegs ((splitSlash key).map some).length ((splitSlash key).map some)
      (sortByDepth segments) with
  | none => rw [hA, Option.none_bind] at h; simp at h
  | some A =>
    rw [hA, Option.some_bind] at h
    cases hS : stripTrailingEmpties A with
    | none => rw [hS, Option.none_bind] at h; simp at h
    | some A' =>
      rw [hS, Option.some_bind] at h
      cases hN : seqOptions A' with
      | none => rw [hN, Option.none_bind] at h; simp at h
      | some names =>
        rw [hN, Option.some_bind] at h
        obtain ⟨hAlen, hAkeep, hAwrite, hAnew⟩ := applySegs_spec _ _ _ _ hA
        obtain ⟨⟨m, hAm⟩, hA'ne, hA'last⟩ := stripTrailingEmpties_eq_some A A' hS
        have hA'map : A' = names.map some := seqOptions_eq_some A' names hN
        have hA'lenle : A'.length ≤ A.length := by
          rw [hAm, List.length_append]
          omega
        -- every position of `A` holds a slash-free name
        have hentry : ∀ d, d < A.length → ∃ v, A[d]? = some (some v) ∧ '/' ∉ v := by
          intro d hd
          by_cases hw : ∃ s ∈ sortByDepth segments, s.depth = d
          · obtain ⟨s, hs, hsd⟩ := hw
            obtain ⟨_, hget⟩ := hAwrite s hs
            rw [hsd] at hget
            cases hgl : (List.filter (fun t => t.depth = d)
                (sortByDepth segments)).getLast? with
            | none =>
              exfalso
              have hmemf : s ∈ List.filter (fun t => t.depth = d) (sortByDepth segments) :=
                List.mem_filter.mpr ⟨hs, by simp [hsd]⟩
              rw [List.getLast?_eq_none_iff.mp hgl] at hmemf
              simp at hmemf
            | some y =>
              rw [hgl] at hget
              have hy : y ∈ sortByDepth segments :=
                List.mem_filter.mp (List.mem_of_mem_getLast? hgl) |>.1
              obtain ⟨nm, hnm, _, hnoslash⟩ := hnsorted y hy
              refine ⟨nm, ?_, hnoslash⟩
              rw [hget]
              simp [hnm]
          · push_neg at hw
            by_cases hd0 : d < ((splitSlash key).map some).length
            · have := hAkeep d hd0 hw
              rw [this, List.getElem?_map]
              have hdlen : d < (splitSlash key).length := by simpa using hd0
              have hmem : (splitSlash key).get ⟨d, hdlen⟩ ∈ splitSlash key :=
                List.get_mem (splitSlash key) d hdlen
              refine ⟨(splitSlash key).get ⟨d, hdlen⟩, ?_,
                splitSlash_no_slash_mem key _ hmem⟩
              rw [List.getElem?_eq_getElem hdlen]
              rfl
            · push_neg at hd0
              have := hAnew d hd0 hd hw
              exact ⟨[], this, by simp⟩
        -- consequences for `names`
        have hnames_ne : names ≠ [] := by
          intro he
          rw [he] at hA'map
          exact hA'ne (by simpa using hA'map)
        have hnames_free : ∀ p ∈ names, '/' ∉ p := by
          intro p hp
          obtain ⟨d, hd⟩ := List.getElem?_of_mem hp
          have hdlt : d < names.length := by
            rcases List.getElem?_eq_some_iff.mp hd with ⟨hlt, _⟩
            exact hlt
          have hdA' : A'[d]? = some (some p) := by
            rw [hA'map, List.getElem?_map, hd]
            rfl
          have hdA : A[d]? = some (some p) := by
            rw [hAm, List.getElem?_append_left, hdA']
            rw [hA'map, List.length_map]
            exact hdlt
          have hdAlt : d < A.length := by
            rcases List.getElem?_eq_some_iff.mp hdA with ⟨hlt, _⟩
            exact hlt
          obtain ⟨v, hv, hvfree⟩ := hentry d hdAlt
          rw [hdA] at hv
          obtain rfl : p = v := by simpa using hv
          exact hvfree
        obtain ⟨plast, hplast⟩ : ∃ p, names.getLast? = some p := by
          cases hnl : names.getLast? with
          | none => exact absurd (List.getLast?_eq_none_iff.mp hnl) hnames_ne
          | some p => exact ⟨p, rfl⟩
        have hplast_ne : plast ≠ [] := by
          intro he
          apply hA'last
          rw [hA'map, List.getLast?_map, hplast, he]
          rfl
        have hplast_mem : plast ∈ names := List.mem_of_mem_getLast? hplast
        have hjoin_last : (joinSlash names).getLast? ≠ some '/' := by
          rw [getLast?_joinSlash names plast hplast hplast_ne]
          intro hc
          have : '/' ∈ plast := List.mem_of_mem_getLast? hc
          exact hnames_free plast hplast_mem this
        obtain ⟨hr_eq, hr_len⟩ := collapseTrailingSlashes_eq_some _ r hjoin_last h
        -- the split of `r` is exactly `names`
        have hsplit_r : splitSlash r = names := by
          rw [hr_eq]
          exact splitSlash_joinSlash names hnames_ne hnames_free
        -- all write depths lie inside `A'`
        have hdep : ∀ s ∈ sortByDepth segments, s.depth < A'.length := by
          intro s hs
          obtain ⟨hslt, hget⟩ := hAwrite s hs
          by_contra hge
          push_neg at hge
          have hbeyond : A[s.depth]? = some (some []) := by
            rw [hAm, List.getElem?_append_right hge]
            rw [List.getElem?_replicate_of_lt]
            have : A.length = A'.length + m := by
              rw [hAm, List.length_append, List.length_replicate]
            omega
          cases hgl : (List.filter (fun t => t.depth = s.depth)
              (sortByDepth segments)).getLast? with
          | none =>
            have : s ∈ List.filter (fun t => t.depth = s.depth) (sortByDepth segments) :=
              List.mem_filter.mpr ⟨hs, by simp⟩
            rw [List.getLast?_eq_none_iff.mp hgl] at this
            simp at this
          | some y =>
            rw [hgl] at hget
            have hy : y ∈ sortByDepth segments :=
              (List.mem_filter.mp (List.mem_of_mem_getLast? hgl)).1
            obtain ⟨nm, hnm, hnm_ne, _⟩ := hnsorted y hy
            rw [hbeyond] at hget
            simp only [Option.map_some', Option.some.injEq] at hget
            rw [hnm] at hget
            exact hnm_ne (by simpa using hget.symm)
        -- second application
        rw [replace_key_segments_none_eq, hsplit_r, ← hA'map]
        obtain ⟨B, hB⟩ := applySegs_succeeds A'.length (sortByDepth segments) A' hdep
        rw [hB, Option.some_bind]
        obtain ⟨hBlen, hBkeep, hBwrite, hBnew⟩ := applySegs_spec _ _ _ _ hB
        have hBeq : B = A' ++ List.replicate (B.length - A'.length) (some []) := by
          apply List.ext_getElem?
          intro n
          by_cases hn1 : n < A'.length
          · rw [List.getElem?_append_left hn1]
            by_cases hw : ∃ s ∈ sortByDepth segments, s.depth = n
            · obtain ⟨s, hs, hsd⟩ := hw
              obtain ⟨_, hgetB⟩ := hBwrite s hs
              obtain ⟨_, hgetA⟩ := hAwrite s hs
              rw [hsd] at hgetB hgetA
              rw [hgetB, ← hgetA, hAm, List.getElem?_append_left hn1]
            · push_neg at hw
              exact hBkeep n hn1 hw
          · push_neg at hn1
            by_cases hn2 : n < B.length
            · have hwno : ∀ s ∈ sortByDepth segments, s.depth ≠ n := by
                intro s hs he
                exact absurd (he ▸ hdep s hs) (by omega)
              rw [hBnew n hn1 hn2 hwno, List.getElem?_append_right hn1]
              rw [List.getElem?_replicate_of_lt]
              omega
            · push_neg at hn2
              rw [List.getElem?_eq_none hn2, List.getElem?_eq_none]
              rw [List.length_append, List.length_replicate]
              omega
        rw [hBeq, stripTrailingEmpties_append_replicate,
          stripTrailingEmpties_of_getLast A' hA'ne hA'last, Option.some_bind]
        rw [hA'map, seqOptions_map_some, Option.some_bind]
        rw [← hr_eq] at hjoin_last hr_len ⊢
        exact collapseTrailingSlashes_of_getLast r hr_len hjoin_last

theorem set_getElem?_self {α : Type} (l : List α) (i : Nat) (a : α)
    (h : l[i]? = some a) : l.set i a = l := by
  apply List.ext_getElem?
  intro n
  by_cases hn : i = n
  · subst hn
    obtain ⟨hlt, _⟩ := List.getElem?_eq_some_iff.mp h
    rw [List.getElem?_set_self hlt, h]
  · rw [List.getElem?_set_ne hn]

theorem splitSlash_cons (c : Char) (cs : Str) (q : Str) (qs : List Str)
    (hq : splitSlash cs = q :: qs) :
    splitSlash (c :: cs) = if c = '/' then [] :: q :: qs else (c :: q) :: qs := by
  simp only [splitSlash, hq]

theorem getLast?_of_splitSlash (s : Str) (p : Str)
    (h : (splitSlash s).getLast? = some p) (hp : p ≠ []) :
    s.getLast? = p.getLast? := by
  induction s generalizing p with
  | nil =>
    simp only [splitSlash] at h
    obtain rfl : ([] : Str) = p := by simpa using h
    exact absurd rfl hp
  | cons c cs ih =>
    cases hq : splitSlash cs with
    | nil => exact absurd hq (splitSlash_ne_nil cs)
    | cons q qs =>
      rw [splitSlash_cons c cs q qs hq] at h
      by_cases hc : c = '/'
      · subst hc
        rw [if_pos rfl, List.getLast?_cons_cons] at h
        cases cs with
        | nil =>
          simp only [splitSlash] at hq
          obtain ⟨rfl, rfl⟩ : ([] : Str) = q ∧ ([] : List Str) = qs := by
            constructor
            · exact (List.cons.inj hq).1
            · exact (List.cons.inj hq).2
          obtain rfl : ([] : Str) = p := by simpa using h
          exact absurd rfl hp
        | cons d ds =>
          rw [List.getLast?_cons_cons]
          exact ih p (hq ▸ h) hp
      · rw [if_neg hc] at h
        cases qs with
        | nil =>
          obtain rfl : c :: q = p := by simpa using h
          cases cs with
          | nil =>
            simp only [splitSlash] at hq
            obtain rfl : ([] : Str) = q := (List.cons.inj hq).1
            rfl
          | cons d ds =>
            have hqne : q ≠ [] := by
              intro he
              subst he
              exact List.cons_ne_nil d ds (splitSlash_eq_single_empty (d :: ds) hq)
            have hih : (d :: ds).getLast? = q.getLast? := by
              apply ih q _ hqne
              rw [hq]
              rfl
            rw [List.getLast?_cons_cons, hih]
            cases q with
            | nil => exact absurd rfl hqne
            | cons e es => rw [List.getLast?_cons_cons]
        | cons r2 rs2 =>
          rw [List.getLast?_cons_cons] at h
          have hsplit : (splitSlash cs).getLast? = some p := by
            rw [hq, List.getLast?_cons_cons]
            exact h
          cases cs with
          | nil => simp [splitSlash] at hq
          | cons d ds =>
            rw [List.getLast?_cons_cons]
            exact ih p hsplit hp

theorem applySegs_cons_eq (ogLen : Nat) (cur : List (Option Str)) (s : KeySegment)
    (rest : List KeySegment) :
    applySegs ogLen cur (s :: rest) =
      match applySeg ogLen cur s with
      | none => none
      | some cur1 => applySegs ogLen cur1 rest := rfl

/-- C7 (amended), second part: replacing a single segment with its current
value returns the key unchanged, provided the replaced component is nonempty,
the key does not end in a slash (no trailing empty component), and the call
succeeds. -/
theorem replace_key_segments_self_noop (key : Str) (d : Nat) (nm : Str)
    (b : Bool) (inc : Option Str) (r : Str)
    (hnm : (splitSlash key)[d]? = some nm)
    (hlast : (splitSlash key).getLast? ≠ some [])
    (h : replace_key_segments key [⟨d, some nm, b, inc⟩] none = some r) : r = key := by
  rw [replace_key_segments_none_eq] at h
  have hsort : sortByDepth [KeySegment.mk d (some nm) b inc] = [⟨d, some nm, b, inc⟩] := rfl
  rw [hsort] at h
  obtain ⟨hdlen, _⟩ := List.getElem?_eq_some_iff.mp hnm
  have hdlt : d < ((splitSlash key).map some).length := by
    rw [List.length_map]
    exact hdlen
  have hks0d : ((splitSlash key).map some)[d]? = some (some nm) := by
    rw [List.getElem?_map, hnm]
    rfl
  have happ : ∃ pad : Nat,
      applySegs ((splitSlash key).map some).length ((splitSlash key).map some)
        [⟨d, some nm, b, inc⟩]
      = some ((splitSlash key).map some ++ List.replicate pad (some [])) := by
    rw [applySegs_cons_eq]
    by_cases hif : ((d : Int) + ((splitSlash key).map some).length - 1
        ≥ ((splitSlash key).map some).length)
    · refine ⟨1, ?_⟩
      have hd2 : d < ((splitSlash key).map some ++ [some []]).length := by
        rw [List.length_append]
        simp only [List.length_singleton]
        omega
      have hone : applySeg ((splitSlash key).map some).length ((splitSlash key).map some)
          ⟨d, some nm, b, inc⟩ = some ((splitSlash key).map some ++ [some []]) := by
        unfold applySeg
        rw [if_pos hif, if_pos hd2]
        have hget : ((splitSlash key).map some ++ [some []])[d]? = some (some nm) := by
          rw [List.getElem?_append_left hdlt]
          exact hks0d
        rw [set_getElem?_self _ _ _ hget]
      rw [hone]
      rfl
    · refine ⟨0, ?_⟩
      have hone : applySeg ((splitSlash key).map some).length ((splitSlash key).map some)
          ⟨d, some nm, b, inc⟩ = some ((splitSlash key).map some) := by
        unfold applySeg
        rw [if_neg hif, if_pos hdlt, set_getElem?_self _ _ _ hks0d]
      rw [hone]
      simp [applySegs]
  obtain ⟨pad, happ⟩ := happ
  rw [happ, Option.some_bind, stripTrailingEmpties_append_replicate] at h
  have hstrip : stripTrailingEmpties ((splitSlash key).map some)
      = some ((splitSlash key).map some) := by
    apply stripTrailingEmpties_of_getLast
    · intro he
      exact splitSlash_ne_nil key (by simpa using he)
    · rw [List.getLast?_map]
      intro he
      apply hlast
      cases hgl : (splitSlash key).getLast? with
      | none => rw [hgl] at he; simp at he
      | some p =>
        rw [hgl] at he
        obtain rfl : p = [] := by simpa using he
        rfl
  rw [hstrip, Option.some_bind, seqOptions_map_some, Option.some_bind,
    joinSlash_splitSlash] at h
  obtain ⟨p, hp⟩ : ∃ p, (splitSlash key).getLast? = some p := by
    cases hgl : (splitSlash key).getLast? with
    | none => exact absurd (List.getLast?_eq_none_iff.mp hgl) (splitSlash_ne_nil key)
    | some p => exact ⟨p, rfl⟩
  have hpne : p ≠ [] := fun he => hlast (he ▸ hp)
  have hkl : key.getLast? ≠ some '/' := by
    rw [getLast?_of_splitSlash key p hp hpne]
    intro hc
    exact splitSlash_no_slash_mem key p (List.mem_of_mem_getLast? hp)
      (List.mem_of_mem_getLast? hc)
  exact (collapseTrailingSlashes_eq_some key r hkl h).1

/-- C7 counterexample: `replace_key_segments` is not idempotent when a
replacement name contains a slash.  On key `"a/b"` with the single segment
`{depth 1, name "x/y"}`, one application yields `"a/x/y"` but a second
application of the same segments yields `"a/x/y/y"`. -/
theorem replace_key_segments_not_idempotent :
    replace_key_segments ("a/b".data) [⟨1, some ("x/y".data), false, none⟩] none
        = some ("a/x/y".data) ∧
      replace_key_segments ("a/x/y".data) [⟨1, some ("x/y".data), false, none⟩] none
        = some ("a/x/y/y".data) ∧
      ("a/x/y/y".data : Str) ≠ "a/x/y".data := by
  refine ⟨by decide, by decide, by decide⟩

/-- C7 (amended): `replace_key_segments` is idempotent whenever every
replacement name is a nonempty string containing no slash: if one application
succeeds with result `r`, applying the same segments to `r` succeeds and
returns `r` again.  In particular, replacing a segment with its current value
returns the key unchanged whenever the key has no trailing empty component
and the call succeeds.  (A name containing a slash breaks idempotence, and a
call can raise `IndexError`, e.g. when the resulting key is shorter than two
characters.) -/
theorem replace_key_segments_idem_amended :
    (∀ (key : Str) (segments : List KeySegment) (r : Str),
        (∀ s ∈ segments, ∃ nm, s.name = some nm ∧ nm ≠ [] ∧ '/' ∉ nm) →
        replace_key_segments key segments none = some r →
        replace_key_segments r segments none = some r) ∧
      (∀ (key : Str) (d : Nat) (nm : Str) (b : Bool) (inc : Option Str) (r : Str),
        (splitSlash key)[d]? = some nm →
        (splitSlash key).getLast? ≠ some [] →
        replace_key_segments key [⟨d, some nm, b, inc⟩] none = some r →
        r = key) :=
  ⟨replace_key_segments_idempotent, replace_key_segments_self_noop⟩

/-- Witness for `replace_key_segments_idem_amended` at concrete inputs:
idempotence starting from key `"a/x"` with segment `{1, "b"}`, and the no-op
replacement of segment 0 of `"a/b"` with its current value `"a"`. -/
theorem replace_key_segments_idem_amended_witness :
    replace_key_segments ("a/b".data) [⟨1, some ("b".data), false, none⟩] none
        = some ("a/b".data) ∧
      ("a/b".data : Str) = "a/b".data :=
  ⟨replace_key_segments_idem_amended.1 ("a/x".data) [⟨1, some ("b".data), false, none⟩]
      "a/b".data (by decide) (by decide),
    replace_key_segments_idem_amended.2 ("a/b".data) 0 ("a".data) false none ("a/b".data)
      (by decide) (by decide) (by decide)⟩

/-! ## The S3 object store and the `list_objects_v2` API
(`S3MP/utils/s3_utils.py`, `S3MP/mirror_path.py`) -/

/-- One stored S3 object: key, size in bytes, and content type. -/
structure S3Obj where
  key : Str
  size : Nat
  contentType : Str
  deriving DecidableEq, Repr

/-- The remote store: the bucket's objects, in listing order (S3 lists keys
in lexicographic order, so a well-formed store is sorted; see `sortedStore`). -/
abbrev Store := List S3Obj

/-- Boolean lexicographic order on keys (the order S3 lists keys in). -/
def keyLt : Str → Str → Bool
  | [], [] => false
  | [], _ :: _ => true
  | _ :: _, [] => false
  | a :: as, b :: bs => if a = b then keyLt as bs else decide (a < b)

/-- A well-formed store: keys strictly increasing (hence unique). -/
def sortedStore (st : Store) : Prop :=
  List.Pairwise (fun a b => keyLt a.key b.key = true) st

instance (st : Store) : Decidable (sortedStore st) := by
  unfold sortedStore
  infer_instance

/-- An entry of a `list_objects_v2` response: a `Contents` entry (key and
size) or a `CommonPrefixes` entry. -/
inductive ListEntry where
  | content (key : Str) (size : Nat)
  | commonPfx (key : Str)
  deriving DecidableEq, Repr

/-- For a key under the listing prefix whose remainder contains the
delimiter `/`, the part of the remainder up to and including the first `/`
(S3 groups such keys under a common prefix). -/
def takeThroughSlash : Str → Str
  | [] => []
  | c :: cs => if c = '/' then ['/'] else c :: takeThroughSlash cs

/-- The full delimiter-`/` listing for a prefix, in store order: keys whose
remainder past the prefix has no slash appear as `Contents` entries; the
others are grouped into deduplicated `CommonPrefixes` entries.  `seen` is the
accumulator of common prefixes already emitted. -/
def mergedListingAux (pfx : Str) (seen : List Str) : Store → List ListEntry
  | [] => []
  | o :: os =>
    if pfx.isPrefixOf o.key then
      let rest := o.key.drop pfx.length
      if '/' ∈ rest then
        let cp := pfx ++ takeThroughSlash rest
        if cp ∈ seen then mergedListingAux pfx seen os
        else .commonPfx cp :: mergedListingAux pfx (cp :: seen) os
      else .content o.key o.size :: mergedListingAux pfx seen os
    else mergedListingAux pfx seen os

/-- The full (un-paginated) delimiter-`/` listing for a prefix. -/
def mergedListing (st : Store) (pfx : Str) : List ListEntry :=
  mergedListingAux pfx [] st

/-- Model of `s3_list_single_key` from `S3MP/utils/s3_utils.py`:
`list_objects_v2(Prefix=key, Delimiter="/", MaxKeys=1)` — the response holds
the first entry of the listing, if any. -/
def s3_list_single_key (st : Store) (k : Str) : Option ListEntry :=
  (mergedListing st k).head?

/-- Model of `key_exists_on_s3` from `S3MP/utils/s3_utils.py`: true iff the single-key
response has a `Contents` or a `CommonPrefixes` entry. -/
def key_exists_on_s3 (st : Store) (k : Str) : Bool :=
  (s3_list_single_key st k).isSome

/-- Model of `client.head_object(Bucket=…, Key=key)`: succeeds iff an object with
exactly this key is stored; otherwise raises a client error with code 404. -/
def head_object (st : Store) (k : Str) : Except Nat S3Obj :=
  match st.find? (fun o => o.key = k) with
  | some o => .ok o
  | none => .error 404

/-- Model of `key_is_file_on_s3` from `S3MP/utils/s3_utils.py`: `head_object`, with a
404 caught and turned into `False`; any other error re-raised. -/
def key_is_file_on_s3 (st : Store) (k : Str) : Except Nat Bool :=
  match head_object st k with
  | .ok _ => .ok true
  | .error e => if e = 404 then .ok false else .error e

/-- Model of `MirrorPath.exists_on_s3` from `S3MP/mirror_path.py`:
`bucket.objects.filter(Prefix=self.s3_key)` is nonempty (no delimiter). -/
def mp_exists_on_s3 (st : Store) (k : Str) : Bool :=
  st.any (fun o => k.isPrefixOf o.key)

/-- Model of `MirrorPath.is_file_on_s3` from `S3MP/mirror_path.py`: read the object's
content type (a HEAD request); on a client error, return `False` when the
prefix exists, otherwise raise `FileNotFoundError`. -/
def mp_is_file_on_s3 (st : Store) (k : Str) : Except Str Bool :=
  match head_object st k with
  | .ok o => .ok (o.contentType ≠ "application/x-directory".data)
  | .error _ =>
    if mp_exists_on_s3 st k then .ok false
    else .error ("FileNotFoundError".data)

example : key_exists_on_s3 [⟨"a/bc".data, 1, [].map id⟩] ("a/b".data) = true := by decide
example : key_is_file_on_s3 [⟨"a/bc".data, 1, []⟩] ("a/b".data) = .ok false := by decide

theorem keyLt_irrefl (a : Str) : keyLt a a = false := by
  induction a with
  | nil => rfl
  | cons c cs ih => simp [keyLt, ih]

theorem keyLt_self_append (k r : Str) (hr : r ≠ []) : keyLt k (k ++ r) = true := by
  induction k with
  | nil =>
    cases r with
    | nil => exact absurd rfl hr
    | cons c cs => rfl
  | cons c cs ih => simpa [keyLt] using ih

theorem keyLt_asymm (a b : Str) (h : keyLt a b = true) : keyLt b a = false := by
  induction a generalizing b with
  | nil =>
    cases b with
    | nil => simpa [keyLt] using h
    | cons c cs => rfl
  | cons c cs ih =>
    cases b with
    | nil => simp [keyLt] at h
    | cons d ds =>
      by_cases hcd : c = d
      · subst hcd
        simp only [keyLt, if_pos rfl] at h ⊢
        exact ih ds h
      · simp only [keyLt, if_neg hcd, if_neg (Ne.symm hcd)] at h ⊢
        simp only [decide_eq_true_eq] at h
        simpa using not_lt_of_lt h

theorem mergedListingAux_ne_nil (pfx : Str) (st : Store) :
    ∀ seen, (∃ o ∈ st, pfx.isPrefixOf o.key = true ∧
      (('/' ∈ o.key.drop pfx.length) →
        pfx ++ takeThroughSlash (o.key.drop pfx.length) ∉ seen)) →
    mergedListingAux pfx seen st ≠ [] := by
  induction st with
  | nil => intro seen h; simp at h
  | cons o os ih =>
    intro seen ⟨x, hx, hpre, hcp⟩
    rcases List.mem_cons.mp hx with rfl | hxos
    · simp only [mergedListingAux]
      rw [if_pos hpre]
      by_cases hsl : '/' ∈ x.key.drop pfx.length
      · rw [if_pos hsl, if_neg (hcp hsl)]
        simp
      · rw [if_neg hsl]
        simp
    · simp only [mergedListingAux]
      by_cases hpo : pfx.isPrefixOf o.key = true
      · rw [if_pos hpo]
        by_cases hsl : '/' ∈ o.key.drop pfx.length
        · rw [if_pos hsl]
          by_cases hin : pfx ++ takeThroughSlash (o.key.drop pfx.length) ∈ seen
          · rw [if_pos hin]
            exact ih seen ⟨x, hxos, hpre, hcp⟩
          · rw [if_neg hin]
            simp
        · rw [if_neg hsl]
          simp
      · rw [if_neg hpo]
        exact ih seen ⟨x, hxos, hpre, hcp⟩

theorem exists_of_mergedListingAux_ne_nil (pfx : Str) (st : Store) :
    ∀ seen, mergedListingAux pfx seen st ≠ [] →
      ∃ o ∈ st, pfx.isPrefixOf o.key = true := by
  induction st with
  | nil => intro seen h; simp [mergedListingAux] at h
  | cons o os ih =>
    intro seen h
    simp only [mergedListingAux] at h
    by_cases hpo : pfx.isPrefixOf o.key = true
    · exact ⟨o, List.mem_cons_self o os, hpo⟩
    · rw [if_neg hpo] at h
      obtain ⟨x, hx, hpre⟩ := ih seen h
      exact ⟨x, List.mem_cons_of_mem o hx, hpre⟩

theorem key_exists_iff_extension (st : Store) (k : Str) :
    key_exists_on_s3 st k = true ↔ ∃ o ∈ st, k.isPrefixOf o.key = true := by
  unfold key_exists_on_s3 s3_list_single_key
  constructor
  · intro h
    apply exists_of_mergedListingAux_ne_nil k st []
    intro hnil
    unfold mergedListing at h
    rw [hnil] at h
    simp at h
  · intro hex
    obtain ⟨o, ho, hpre⟩ := hex
    have hne : mergedListing st k ≠ [] := by
      apply mergedListingAux_ne_nil k st []
      exact ⟨o, ho, hpre, fun _ => by simp⟩
    cases hl : mergedListing st k with
    | nil => exact absurd hl hne
    | cons e es => rfl

theorem mp_exists_iff_extension (st : Store) (k : Str) :
    mp_exists_on_s3 st k = true ↔ ∃ o ∈ st, k.isPrefixOf o.key = true := by
  unfold mp_exists_on_s3
  exact List.any_eq_true

theorem content_mem_mergedListingAux (pfx : Str) (st : Store) (k : Str) (sz : Nat) :
    ∀ seen, ListEntry.content k sz ∈ mergedListingAux pfx seen st →
      ∃ o ∈ st, o.key = k ∧ o.size = sz := by
  induction st with
  | nil => intro seen h; simp [mergedListingAux] at h
  | cons o os ih =>
    intro seen h
    simp only [mergedListingAux] at h
    by_cases hpo : pfx.isPrefixOf o.key = true
    · rw [if_pos hpo] at h
      by_cases hsl : '/' ∈ o.key.drop pfx.length
      · rw [if_pos hsl] at h
        by_cases hin : pfx ++ takeThroughSlash (o.key.drop pfx.length) ∈ seen
        · rw [if_pos hin] at h
          obtain ⟨x, hx, hk, hs⟩ := ih seen h
          exact ⟨x, List.mem_cons_of_mem o hx, hk, hs⟩
        · rw [if_neg hin] at h
          rcases List.mem_cons.mp h with heq | htail
          · exact absurd heq (by simp)
          · obtain ⟨x, hx, hk, hs⟩ := ih _ htail
            exact ⟨x, List.mem_cons_of_mem o hx, hk, hs⟩
      · rw [if_neg hsl] at h
        rcases List.mem_cons.mp h with heq | htail
        · obtain ⟨hk, hs⟩ : o.key = k ∧ o.size = sz := by
            constructor <;> [exact (ListEntry.content.inj heq.symm).1;
              exact (ListEntry.content.inj heq.symm).2]
          exact ⟨o, List.mem_cons_self o os, hk, hs⟩
        · obtain ⟨x, hx, hk, hs⟩ := ih seen htail
          exact ⟨x, List.mem_cons_of_mem o hx, hk, hs⟩
    · rw [if_neg hpo] at h
      obtain ⟨x, hx, hk, hs⟩ := ih seen h
      exact ⟨x, List.mem_cons_of_mem o hx, hk, hs⟩

theorem mergedListing_head_of_exact (st : Store) (k : Str) (hsort : sortedStore st)
    (o : S3Obj) (ho : o ∈ st) (hk : o.key = k) :
    ∃ sz, (mergedListing st k).head? = some (.content k sz) := by
  induction st with
  | nil => simp at ho
  | cons p ps ih =>
    obtain ⟨hrel, htail⟩ := List.pairwise_cons.mp hsort
    rcases List.mem_cons.mp ho with rfl | hos
    · refine ⟨o.size, ?_⟩
      unfold mergedListing mergedListingAux
      have hpre : k.isPrefixOf o.key = true := by
        rw [hk]
        exact List.isPrefixOf_iff_prefix.mpr (List.prefix_refl k)
      rw [if_pos hpre]
      have hrest : o.key.drop k.length = [] := by
        rw [hk]
        exact List.drop_length k
      rw [hrest, if_neg (by simp)]
      rw [hk]
      rfl
    · have hlt : keyLt p.key k = true := hk ▸ hrel o hos
      have hnpre : ¬ k.isPrefixOf p.key = true := by
        intro hpre
        obtain ⟨rest, hrest⟩ := List.isPrefixOf_iff_prefix.mp hpre
        cases rest with
        | nil =>
          rw [List.append_nil] at hrest
          rw [← hrest] at hlt
          rw [keyLt_irrefl] at hlt
          exact Bool.false_ne_true hlt
        | cons c cs =>
          have hgt : keyLt k p.key = true := by
            rw [← hrest]
            exact keyLt_self_append k (c :: cs) (by simp)
          rw [keyLt_asymm k p.key hgt] at hlt
          exact Bool.false_ne_true hlt
      have hstep : mergedListing (p :: ps) k = mergedListing ps k := by
        show mergedListingAux k [] (p :: ps) = mergedListingAux k [] ps
        conv_lhs => rw [mergedListingAux]
        rw [if_neg hnpre]
      rw [hstep]
      exact ih htail hos

/-- C10: existence checks are purely prefix-based.  `key_exists_on_s3` and
`MirrorPath.exists_on_s3` return true exactly when some stored key has the
probed key as a string prefix; in particular, with only the object `"a/bc"`
stored, existence of `"a/b"` is reported true even though `"a/b"` is not an
object (`key_is_file_on_s3` says false) and `"a/bc"` is not a slash-delimited
child of `"a/b"`. -/
theorem exists_checks_are_prefix_based :
    (∀ (st : Store) (k : Str),
        key_exists_on_s3 st k = true ↔ ∃ o ∈ st, k.isPrefixOf o.key = true) ∧
      (∀ (st : Store) (k : Str),
        mp_exists_on_s3 st k = true ↔ ∃ o ∈ st, k.isPrefixOf o.key = true) ∧
      key_exists_on_s3 [⟨"a/bc".data, 1, []⟩] ("a/b".data) = true ∧
      mp_exists_on_s3 [⟨"a/bc".data, 1, []⟩] ("a/b".data) = true ∧
      key_is_file_on_s3 [⟨"a/bc".data, 1, []⟩] ("a/b".data) = .ok false :=
  ⟨key_exists_iff_extension, mp_exists_iff_extension, by decide, by decide, by decide⟩

/-- C1 counterexample: on a key with no listing entry at all (empty store,
key `"a"`), `key_is_file_on_s3` returns `False` — the 404 from `head_object`
is caught — instead of raising a NotFound condition as the claim states.
Moreover, for a stored zero-byte folder marker `"f/"` (directory content
type), the key resolves to a content entry matching the literal key, yet
`MirrorPath.is_file_on_s3` classifies it as a folder, refuting the claimed
iff for that function. -/
theorem key_is_file_no_notfound_counterexample :
    key_exists_on_s3 ([] : Store) "a".data = false ∧
      key_is_file_on_s3 ([] : Store) "a".data = .ok false ∧
      key_exists_on_s3 [⟨"f/".data, 0, "application/x-directory".data⟩] ("f/".data) = true ∧
      s3_list_single_key [⟨"f/".data, 0, "application/x-directory".data⟩] ("f/".data)
        = some (.content ("f/".data) 0) ∧
      mp_is_file_on_s3 [⟨"f/".data, 0, "application/x-directory".data⟩] ("f/".data)
        = .ok false := by
  refine ⟨by decide, by decide, by decide, by decide, by decide⟩

/-- C1 (amended): for a key with no listing entry at all, `key_is_file_on_s3`
returns `False` without raising (the 404 is caught), and only
`MirrorPath.is_file_on_s3` raises a NotFound condition
(`FileNotFoundError`).  For every existing key of a lexicographically sorted
store, `key_is_file_on_s3` returns true iff the single-key listing resolves
to a content entry matching the literal key (equivalently, an object with
exactly that key is stored); `MirrorPath.is_file_on_s3` additionally reports
directory-content-type markers as folders. -/
theorem key_is_file_classification_amended :
    (∀ (st : Store) (k : Str), key_exists_on_s3 st k = false →
        key_is_file_on_s3 st k = .ok false) ∧
      (∀ (st : Store) (k : Str), key_exists_on_s3 st k = false →
        mp_is_file_on_s3 st k = .error ("FileNotFoundError".data)) ∧
      (∀ (st : Store) (k : Str), sortedStore st → key_exists_on_s3 st k = true →
        (key_is_file_on_s3 st k = .ok true ↔
          ∃ sz, s3_list_single_key st k = some (.content k sz))) := by
  have hfind_none : ∀ (st : Store) (k : Str), key_exists_on_s3 st k = false →
      st.find? (fun o => o.key = k) = none := by
    intro st k hex
    rw [List.find?_eq_none]
    intro o ho hko
    have : key_exists_on_s3 st k = true := by
      rw [key_exists_iff_extension]
      refine ⟨o, ho, ?_⟩
      have : o.key = k := by simpa using hko
      rw [this]
      exact List.isPrefixOf_iff_prefix.mpr (List.prefix_refl k)
    rw [this] at hex
    exact absurd hex (by simp)
  refine ⟨?_, ?_, ?_⟩
  · intro st k hex
    unfold key_is_file_on_s3 head_object
    rw [hfind_none st k hex]
    rfl
  · intro st k hex
    unfold mp_is_file_on_s3 head_object
    rw [hfind_none st k hex]
    have hmp : mp_exists_on_s3 st k = false := by
      by_contra hne
      have : mp_exists_on_s3 st k = true := by
        cases h : mp_exists_on_s3 st k
        · exact absurd h hne
        · rfl
      rw [mp_exists_iff_extension] at this
      rw [(key_exists_iff_extension st k).mpr this] at hex
      exact absurd hex (by simp)
    simp only [hmp]
    rfl
  · intro st k hsort _
    constructor
    · intro hfile
      unfold key_is_file_on_s3 head_object at hfile
      cases hf : st.find? (fun o => o.key = k) with
      | none => rw [hf] at hfile; simp at hfile
      | some o =>
        have ho : o ∈ st := List.mem_of_find?_eq_some hf
        have hko : o.key = k := by simpa using List.find?_some hf
        exact mergedListing_head_of_exact st k hsort o ho hko
    · intro ⟨sz, hsz⟩
      unfold s3_list_single_key at hsz
      have hc : ListEntry.content k sz ∈ mergedListing st k :=
        List.mem_of_mem_head? (hsz ▸ rfl)
      obtain ⟨o, ho, hko, _⟩ := content_mem_mergedListingAux k st k sz [] hc
      unfold key_is_file_on_s3 head_object
      cases hf : st.find? (fun o => o.key = k) with
      | none =>
        rw [List.find?_eq_none] at hf
        exact absurd (by simpa using hko) (by simpa using hf o ho)
      | some p => rfl

/-- Witness for `key_is_file_classification_amended`: a store holding only
`"x/y"`, probed at the missing key `"zz"` (parts one and two) and at the
stored key `"x/y"` (part three). -/
theorem key_is_file_classification_amended_witness :
    key_is_file_on_s3 [⟨"x/y".data, 7, []⟩] ("zz".data) = .ok false ∧
      mp_is_file_on_s3 [⟨"x/y".data, 7, []⟩] ("zz".data)
        = .error ("FileNotFoundError".data) ∧
      (key_is_file_on_s3 [⟨"x/y".data, 7, []⟩] ("x/y".data) = .ok true ↔
        ∃ sz, s3_list_single_key [⟨"x/y".data, 7, []⟩] ("x/y".data)
          = some (.content ("x/y".data) sz)) :=
  ⟨key_is_file_classification_amended.1 [⟨"x/y".data, 7, []⟩] ("zz".data) (by decide),
    key_is_file_classification_amended.2.1 [⟨"x/y".data, 7, []⟩] ("zz".data) (by decide),
    key_is_file_classification_amended.2.2 [⟨"x/y".data, 7, []⟩] ("x/y".data)
      (by decide) (by decide)⟩

/-! ## Paginated child listing and deletion (`S3MP/utils/s3_utils.py`) -/

/-- The keys one `list_objects_v2` page contributes inside the
`s3_list_child_keys` loop: the page's `Contents` keys other than the probed
key itself, followed by the page's `CommonPrefixes` keys. -/
def pageKeys (k : Str) (page : List ListEntry) : List Str :=
  (page.filterMap fun e =>
    match e with
    | .content key _ => if key = k then none else some key
    | .commonPfx _ => none) ++
  (page.filterMap fun e =>
    match e with
    | .content _ _ => none
    | .commonPfx key => some key)

/-- The `while True` continuation-token loop of `s3_list_child_keys`, over
the full listing chunked into pages of `pageSize` entries; a page that is not
the last carries a continuation token.  The fuel argument is the number of
remaining entries, which suffices for any positive page size. -/
def childKeysGo (k : Str) (pageSize : Nat) : Nat → List ListEntry → List Str
  | 0, items => pageKeys k items
  | fuel + 1, items =>
    if items.length ≤ pageSize then pageKeys k items
    else pageKeys k (items.take pageSize) ++ childKeysGo k pageSize fuel (items.drop pageSize)

/-- Model of `s3_list_child_keys` from `S3MP/utils/s3_utils.py`, for a client whose
pages hold `pageSize` entries. -/
def s3_list_child_keys (st : Store) (k : Str) (pageSize : Nat) : List Str :=
  childKeysGo k pageSize (mergedListing st k).length (mergedListing st k)

/-- Model of `client.delete_object`: remove the object with exactly this key (a no-op
when no such object is stored, as in S3). -/
def delete_object (st : Store) (k : Str) : Store :=
  st.filter (fun o => o.key ≠ k)

/-- Model of `delete_child_keys_on_s3` from `S3MP/utils/s3_utils.py`: delete each
listed child key individually. -/
def delete_child_keys_on_s3 (st : Store) (k : Str) (pageSize : Nat) : Store :=
  (s3_list_child_keys st k pageSize).foldl delete_object st

/-- Model of `delete_key_on_s3` from `S3MP/utils/s3_utils.py`: return unchanged when
the key does not exist; single delete when it is a file; otherwise delete the
listed children. -/
def delete_key_on_s3 (st : Store) (k : Str) (pageSize : Nat) : Except Nat Store :=
  if key_exists_on_s3 st k = false then .ok st
  else match key_is_file_on_s3 st k with
    | .error e => .error e
    | .ok true => .ok (delete_object st k)
    | .ok false => .ok (delete_child_keys_on_s3 st k pageSize)

/-- The C5 scenario store: remote keys `f/a`, `f/b`, `f/sub/c`, `g/d`. -/
def folderScenarioStore : Store :=
  [⟨"f/a".data, 1, []⟩, ⟨"f/b".data, 2, []⟩, ⟨"f/sub/c".data, 3, []⟩, ⟨"g/d".data, 4, []⟩]

/-- C5: deleting the folder key `f/` enumerates one listing level with the
`/` delimiter, so the children found are `f/a`, `f/b` and the common prefix
`f/sub/`; `delete_object` on a common prefix deletes nothing, so the nested
descendant `f/sub/c` survives, contradicting the claim that every descendant
is removed (the sibling `g/d` is indeed unaffected).  Page size 2 exercises
the continuation-token loop (two pages). -/
theorem delete_key_folder_nested_child_survives :
    s3_list_child_keys folderScenarioStore ("f/".data) 2
        = ["f/a".data, "f/b".data, "f/sub/".data] ∧
      delete_key_on_s3 folderScenarioStore ("f/".data) 2
        = .ok [⟨"f/sub/c".data, 3, []⟩, ⟨"g/d".data, 4, []⟩] ∧
      key_exists_on_s3 [⟨"f/sub/c".data, 3, []⟩, ⟨"g/d".data, 4, []⟩] ("f/sub/c".data)
        = true ∧
      key_exists_on_s3 [⟨"f/sub/c".data, 3, []⟩, ⟨"g/d".data, 4, []⟩] ("f/a".data)
        = false ∧
      key_exists_on_s3 [⟨"f/sub/c".data, 3, []⟩, ⟨"g/d".data, 4, []⟩] ("f/b".data)
        = false ∧
      key_exists_on_s3 [⟨"f/sub/c".data, 3, []⟩, ⟨"g/d".data, 4, []⟩] ("g/d".data)
        = true ∧
      sortedStore folderScenarioStore := by
  refine ⟨by decide, by decide, by decide, by decide, by decide, by decide, by decide⟩

/-! ## Local filesystem and `MirrorPath.delete_local`
(`S3MP/mirror_path.py`) -/

/-- A local filesystem node: a file with a byte size, or a directory with
named children. -/
inductive FSNode where
  | file (size : Nat)
  | dir (children : List (Str × FSNode))

/-- Model of `Path.unlink()`: removes a file; on a directory it raises
`IsADirectoryError`. -/
def unlinkNode : FSNode → Except Str Unit
  | .file _ => .ok ()
  | .dir _ => .error ("IsADirectoryError".data)

/-- The `for path in self.local_path.iterdir(): path.unlink()` loop of
`MirrorPath.delete_local`: removes file children in order until the first
directory child raises; returns the children still present afterwards
(the raising directory and everything not yet visited). -/
def unlinkChildren : List (Str × FSNode) → List (Str × FSNode) × Option Str
  | [] => ([], none)
  | (nm, FSNode.file sz) :: rest =>
    match unlinkNode (FSNode.file sz) with
    | .ok _ => unlinkChildren rest
    | .error e => ((nm, FSNode.file sz) :: rest, some e)
  | (nm, FSNode.dir g) :: rest =>
    match unlinkNode (FSNode.dir g) with
    | .ok _ => unlinkChildren rest
    | .error e => ((nm, FSNode.dir g) :: rest, some e)

/-- Model of `MirrorPath.delete_local` from `S3MP/mirror_path.py`: no-op when absent;
`unlink` a file; for a directory, `unlink` each immediate child (raising
`IsADirectoryError` on a child directory) and then `rmdir` the directory.
Returns the node remaining at the path (none = absent) and the raised error,
if any. -/
def delete_local (node : Option FSNode) : Option FSNode × Option Str :=
  match node with
  | none => (none, none)
  | some (FSNode.file _) => (none, none)
  | some (FSNode.dir children) =>
    match unlinkChildren children with
    | (_, none) => (none, none)
    | (remaining, some e) => (some (FSNode.dir remaining), some e)

/-- C8: `delete_local` does not recurse into nested subdirectories — on a
directory containing the file `a` and the subdirectory `sub` (holding file
`c`), `path.unlink()` on `sub` raises `IsADirectoryError` and the path is
left present with the whole subtree `sub/c` intact, contradicting the claim
of full recursive removal.  A directory of plain files is removed fine. -/
theorem delete_local_nested_dir_raises :
    delete_local (some (FSNode.dir
        [("a".data, FSNode.file 1), ("sub".data, FSNode.dir [("c".data, FSNode.file 2)])]))
      = (some (FSNode.dir [("sub".data, FSNode.dir [("c".data, FSNode.file 2)])]),
          some ("IsADirectoryError".data)) ∧
      delete_local (some (FSNode.dir [("a".data, FSNode.file 1), ("b".data, FSNode.file 2)]))
        = (none, none) ∧
      delete_local (some (FSNode.file 3)) = (none, none) ∧
      delete_local none = (none, none) :=
  ⟨rfl, rfl, rfl, rfl⟩

/-! ## `MirrorPath.download_to_mirror` and skip-with-credit
(`S3MP/mirror_path.py`) -/

/-- The process-wide progress callback: the set of tracked transfer objects
(identified by their S3 keys) and the bytes seen so far
(`FileSizeTQDMCallback._transfer_objs` / `_bytes_seen_so_far`). -/
structure Callback where
  transferObjs : List Str
  seen : Nat
  deriving DecidableEq, Repr

/-- The local mirror: the files present, as (projected s3 key, byte size). -/
abbrev LocalFS := List (Str × Nat)

/-- Model of `MirrorPath.get_s3_key_size_bytes`: `content_length` of the exact object
(a HEAD request, raising a client error when absent). -/
def get_s3_key_size_bytes (st : Store) (k : Str) : Except Str Nat :=
  match head_object st k with
  | .ok o => .ok o.size
  | .error _ => .error ("ClientError".data)

/-- Model of `MirrorPath.get_size_bytes(on_s3)` from `S3MP/mirror_path.py`: the
remote size when `on_s3` and the key exists on S3 (prefix check), else the
local file's size, else `FileNotFoundError`. -/
def get_size_bytes (st : Store) (fs : LocalFS) (k : Str) (onS3 : Bool) :
    Except Str Nat :=
  if onS3 && mp_exists_on_s3 st k then get_s3_key_size_bytes st k
  else match fs.find? (fun e => e.1 = k) with
    | some e => .ok e.2
    | none => .error ("FileNotFoundError".data)

/-- Model of `MirrorPath.update_current_callback_on_skipped_transfer`: when a callback
is active and tracks this MirrorPath, advance it by the item's size. -/
def update_callback_on_skipped (st : Store) (fs : LocalFS) (k : Str)
    (isDownload : Bool) (cb : Option Callback) : Except Str (Option Callback) :=
  match cb with
  | none => .ok none
  | some c =>
    if k ∈ c.transferObjs then
      match get_size_bytes st fs k isDownload with
      | .error e => .error e
      | .ok n => .ok (some { c with seen := c.seen + n })
    else .ok (some c)

/-- A network download call issued by `download_to_mirror`. -/
inductive DownloadEvent where
  | downloadFile (key : Str)
  deriving DecidableEq, Repr

/-- Model of `MirrorPath.download_to_mirror` from `S3MP/mirror_path.py`: skip (with
progress credit) when the local file exists and `overwrite` is false;
otherwise download the file (advancing the active callback by its bytes), or
recurse over every stored key under the prefix for a folder.  The fuel
bounds the folder recursion depth; exhaustion is modelled as an error. -/
def download_to_mirror (st : Store) :
    Nat → LocalFS → Option Callback → Str → Bool →
      Except Str (LocalFS × Option Callback × List DownloadEvent)
  | 0, _, _, _, _ => .error ("RecursionError".data)
  | fuel + 1, fs, cb, k, overwrite =>
    if ¬overwrite ∧ (fs.find? (fun e => e.1 = k)).isSome then
      match update_callback_on_skipped st fs k true cb with
      | .error e => .error e
      | .ok cb1 => .ok (fs, cb1, [])
    else
      match mp_is_file_on_s3 st k with
      | .error e => .error e
      | .ok true =>
        match get_s3_key_size_bytes st k with
        | .error e => .error e
        | .ok sz =>
          let cb1 := cb.map (fun c => { c with seen := c.seen + sz })
          .ok ((k, sz) :: fs.filter (fun e => e.1 ≠ k), cb1, [.downloadFile k])
      | .ok false =>
        (st.filter (fun o => k.isPrefixOf o.key)).foldlM
          (fun acc o =>
            (download_to_mirror st fuel acc.1 acc.2.1 o.key overwrite).map
              (fun res => (res.1, res.2.1, acc.2.2 ++ res.2.2)))
          (fs, cb, [])

theorem download_skip_eq_update (st : Store) (fs : LocalFS) (k : Str)
    (c : Callback) (fuel : Nat)
    (hlocal : (fs.find? (fun e => e.1 = k)).isSome) :
    download_to_mirror st (fuel + 1) fs (some c) k false
      = match update_callback_on_skipped st fs k true (some c) with
        | .error e => .error e
        | .ok cb1 => .ok (fs, cb1, []) := by
  unfold download_to_mirror
  rw [if_pos ⟨by simp, hlocal⟩]

/-- C4 counterexample: when the local file already exists, the skipped
download does not always advance the callback by the local file's byte
size.  With local file `a/b` of 5 bytes and a stale remote object `a/b` of
9 bytes, the callback is advanced by the remote size 9 (the code credits
`get_size_bytes(on_s3=True)`, preferring the remote size); and with only the
extension `a/bc` stored, the prefix-existence check passes but
`Object(key).content_length` raises a client error, so the skip path raises
instead of advancing. -/
theorem download_skip_credit_counterexample :
    download_to_mirror [⟨"a/b".data, 9, []⟩] 1 [("a/b".data, 5)]
        (some ⟨["a/b".data], 0⟩) ("a/b".data) false
      = .ok ([("a/b".data, 5)], some ⟨["a/b".data], 9⟩, []) ∧
      (9 : Nat) ≠ 5 ∧
      download_to_mirror [⟨"a/bc".data, 1, []⟩] 1 [("a/b".data, 5)]
          (some ⟨["a/b".data], 0⟩) ("a/b".data) false
        = .error ("ClientError".data) :=
  ⟨by decide, by decide, by decide⟩

/-- C4 (amended): for every MirrorPath whose local file already exists,
`download_to_mirror` with `overwrite=false` performs zero network download
calls and leaves the mirror unchanged; an active callback tracking the path
is advanced by the amount `get_size_bytes(is_download=True)` reports — the
local file's byte size only when no stored key extends the MirrorPath's key,
but the exact remote object's reported size whenever such an object exists
(which may differ from the local size) — and when stored keys extend the key
without an exact object being present, the skip path raises a client error
instead of advancing. -/
theorem download_skip_advances_by_reported_size :
    (∀ (st : Store) (fs : LocalFS) (k : Str) (c : Callback) (L fuel : Nat),
      fs.find? (fun e => e.1 = k) = some (k, L) →
      k ∈ c.transferObjs →
      mp_exists_on_s3 st k = false →
      download_to_mirror st (fuel + 1) fs (some c) k false
        = .ok (fs, some { c with seen := c.seen + L }, [])) ∧
    (∀ (st : Store) (fs : LocalFS) (k : Str) (c : Callback) (L fuel : Nat)
        (o : S3Obj),
      fs.find? (fun e => e.1 = k) = some (k, L) →
      k ∈ c.transferObjs →
      head_object st k = .ok o →
      download_to_mirror st (fuel + 1) fs (some c) k false
        = .ok (fs, some { c with seen := c.seen + o.size }, [])) ∧
    (∀ (st : Store) (fs : LocalFS) (k : Str) (c : Callback) (L fuel err : Nat),
      fs.find? (fun e => e.1 = k) = some (k, L) →
      k ∈ c.transferObjs →
      mp_exists_on_s3 st k = true →
      head_object st k = .error err →
      download_to_mirror st (fuel + 1) fs (some c) k false
        = .error ("ClientError".data)) := by
  refine ⟨?_, ?_, ?_⟩
  · intro st fs k c L fuel hlocal htracked hex
    rw [download_skip_eq_update st fs k c fuel (by rw [hlocal]; rfl)]
    have hupd : update_callback_on_skipped st fs k true (some c)
        = .ok (some { c with seen := c.seen + L }) := by
      simp only [update_callback_on_skipped]
      rw [if_pos htracked]
      have hsz : get_size_bytes st fs k true = .ok L := by
        unfold get_size_bytes
        rw [if_neg (by simp [hex]), hlocal]
      rw [hsz]
    rw [hupd]
  · intro st fs k c L fuel o hlocal htracked hh
    have hfind : st.find? (fun x => x.key = k) = some o := by
      unfold head_object at hh
      cases hf : st.find? (fun x => x.key = k) with
      | none => rw [hf] at hh; exact absurd hh (by simp)
      | some p =>
        rw [hf] at hh
        obtain rfl : p = o := Except.ok.inj hh
        rfl
    have ho : o ∈ st := List.mem_of_find?_eq_some hfind
    have hko : o.key = k := by simpa using List.find?_some hfind
    have hex : mp_exists_on_s3 st k = true := by
      rw [mp_exists_iff_extension]
      refine ⟨o, ho, ?_⟩
      rw [hko]
      exact List.isPrefixOf_iff_prefix.mpr (List.prefix_refl k)
    rw [download_skip_eq_update st fs k c fuel (by rw [hlocal]; rfl)]
    have hupd : update_callback_on_skipped st fs k true (some c)
        = .ok (some { c with seen := c.seen + o.size }) := by
      simp only [update_callback_on_skipped]
      rw [if_pos htracked]
      have hsz : get_size_bytes st fs k true = .ok o.size := by
        unfold get_size_bytes
        rw [if_pos (by simp [hex])]
        unfold get_s3_key_size_bytes
        rw [hh]
      rw [hsz]
    rw [hupd]
  · intro st fs k c L fuel err hlocal htracked hex herr
    rw [download_skip_eq_update st fs k c fuel (by rw [hlocal]; rfl)]
    have hupd : update_callback_on_skipped st fs k true (some c)
        = .error ("ClientError".data) := by
      simp only [update_callback_on_skipped]
      rw [if_pos htracked]
      have hsz : get_size_bytes st fs k true = .error ("ClientError".data) := by
        unfold get_size_bytes
        rw [if_pos (by simp [hex])]
        unfold get_s3_key_size_bytes
        rw [herr]
      rw [hsz]
    rw [hupd]

/-- Witness for `download_skip_advances_by_reported_size` at concrete
inputs: local file `m/f` of 7 bytes with an empty store (local size
credited), the same file with a stale 9-byte remote object (remote size 9
credited), and key `x/y` with only the extension `x/yz` stored (client
error raised). -/
theorem download_skip_advances_by_reported_size_witness :
    download_to_mirror [] 1 [("m/f".data, 7)]
        (some ⟨["m/f".data], 0⟩) ("m/f".data) false
      = .ok ([("m/f".data, 7)], some ⟨["m/f".data], 7⟩, []) ∧
      download_to_mirror [⟨"m/f".data, 9, []⟩] 1 [("m/f".data, 7)]
          (some ⟨["m/f".data], 0⟩) ("m/f".data) false
        = .ok ([("m/f".data, 7)], some ⟨["m/f".data], 9⟩, []) ∧
      download_to_mirror [⟨"x/yz".data, 1, []⟩] 1 [("x/y".data, 5)]
          (some ⟨["x/y".data], 0⟩) ("x/y".data) false
        = .error ("ClientError".data) :=
  ⟨download_skip_advances_by_reported_size.1 [] [("m/f".data, 7)] ("m/f".data)
      ⟨["m/f".data], 0⟩ 7 0 (by decide) (by decide) (by decide),
    download_skip_advances_by_reported_size.2.1 [⟨"m/f".data, 9, []⟩]
      [("m/f".data, 7)] ("m/f".data) ⟨["m/f".data], 0⟩ 7 0 ⟨"m/f".data, 9, []⟩
      (by decide) (by decide) (by decide),
    download_skip_advances_by_reported_size.2.2 [⟨"x/yz".data, 1, []⟩]
      [("x/y".data, 5)] ("x/y".data) ⟨["x/y".data], 0⟩ 5 0 404
      (by decide) (by decide) (by decide) (by decide)⟩

/-! ## Resumable multipart uploads (`S3MP/multipart_uploads.py`) -/

/-- An already-uploaded part of an open multipart upload, as reported by the
remote store. -/
structure MpuPart where
  partNumber : Nat
  size : Nat
  eTag : Nat
  deriving DecidableEq, Repr

/-- One step of a stable insertion sort on `part_number`
(`mpu_parts.sort(key=lambda part: part.part_number)`). -/
def insertByPartNumber (x : MpuPart) : List MpuPart → List MpuPart
  | [] => [x]
  | y :: ys =>
    if x.partNumber ≤ y.partNumber then x :: y :: ys else y :: insertByPartNumber x ys

/-- Python's stable `sort(key=lambda part: part.part_number)`. -/
def sortPartsByNumber (l : List MpuPart) : List MpuPart := l.foldr insertByPartNumber []

/-- Model of `MB` from `s3transfer.constants`. -/
def MB : Nat := 1024 * 1024

/-- The thread-pool executor: the workers finish in the order given by
`order` (a scheduling choice); each finished task is recorded with its task
id (the part number it was submitted for) and the deterministic result of
uploading that part's data (`etagOf`). -/
def runExecutor (tasks : List Nat) (etagOf : Nat → Nat) (order : List Nat) :
    List (Nat × Nat) :=
  order.filterMap (fun i => if i ∈ tasks then some (i, etagOf i) else none)

/-- Model of `thread_future.result()`: wait for and return the result of one specific
submitted task, regardless of where it finished in the schedule. -/
def futureResult (completed : List (Nat × Nat)) (taskId : Nat) : Option Nat :=
  (completed.find? (fun e => e.1 = taskId)).map (fun e => e.2)

/-- The `for u_part, thread_future in zip(uploaded_parts, thread_futures)`
loop: collect each submitted task's result in submission order, pairing it
with the task's originally assigned part number. -/
def collectResults (completed : List (Nat × Nat)) : List Nat → Option (List (Nat × Nat))
  | [] => some []
  | n :: rest =>
    match futureResult completed n with
    | none => none
    | some e => (collectResults completed rest).map (fun l => (n, e) :: l)

/-- The completion record built by `resume_multipart_upload`: the
`MultipartUpload` part list as (part number, etag) pairs, and the part
numbers submitted for upload in this resume. -/
structure ResumeOutcome where
  completionParts : List (Nat × Nat)
  uploadsSubmitted : List Nat
  deriving DecidableEq, Repr

/-- The body of `resume_multipart_upload` (`S3MP/multipart_uploads.py`) once
an open upload with parts `parts` was found, for a local file of `S` bytes:
sort the parts, infer the part size as the maximum reported size (asserting
all but the last equal it), compute the total part count as ceil(S/p)
(Python `math.ceil(total/part_size)`, exact here) and upload parts
k+1..total concurrently, re-associating each worker's result with its
originally assigned part number via `zip(uploaded_parts, thread_futures)`.
Errors: a maximum part size of zero would divide by zero, the assert can
fail, and a future whose task never finishes never returns. -/
def resume_multipart_body (parts : List MpuPart) (S : Nat) (etagOf : Nat → Nat)
    (order : List Nat) : Except Str ResumeOutcome :=
  let sorted := sortPartsByNumber parts
  let k := sorted.length
  let p := (sorted.map MpuPart.size).foldl Nat.max 0
  if p = 0 then .error ("ZeroDivisionError".data)
  else if ¬ (sorted.dropLast.all (fun part => part.size = p)) then
    .error ("AssertionError".data)
  else
    let nTotal := (S + p - 1) / p
    let newNums := List.range' (k + 1) (nTotal - k)
    let completed := runExecutor newNums etagOf order
    match collectResults completed newNums with
    | none => .error ("DeadlockError".data)
    | some newEntries =>
      .ok { completionParts :=
              sorted.map (fun part => (part.partNumber, part.eTag)) ++ newEntries,
            uploadsSubmitted := newNums }

theorem futureResult_runExecutor (tasks : List Nat) (etagOf : Nat → Nat)
    (order : List Nat) (n : Nat) (hn : n ∈ tasks) (ho : n ∈ order) :
    futureResult (runExecutor tasks etagOf order) n = some (etagOf n) := by
  unfold futureResult runExecutor
  induction order with
  | nil => simp at ho
  | cons i rest ih =>
    rcases List.mem_cons.mp ho with rfl | hrest
    · rw [List.filterMap_cons, if_pos hn]
      simp [List.find?]
    · rw [List.filterMap_cons]
      by_cases hi : i ∈ tasks
      · rw [if_pos hi]
        by_cases hin : i = n
        · subst hin
          simp [List.find?]
        · have : List.find? (fun e => e.1 = n) ((i, etagOf i) ::
              List.filterMap (fun i => if i ∈ tasks then some (i, etagOf i) else none) rest)
              = List.find? (fun e => e.1 = n)
                (List.filterMap (fun i => if i ∈ tasks then some (i, etagOf i) else none) rest) := by
            rw [List.find?_cons_of_neg]
            simp [hin]
          rw [this]
          exact ih hrest
      · rw [if_neg hi]
        exact ih hrest

theorem collectResults_all (completed : List (Nat × Nat)) (etagOf : Nat → Nat)
    (l : List Nat) (h : ∀ n ∈ l, futureResult completed n = some (etagOf n)) :
    collectResults completed l = some (l.map (fun n => (n, etagOf n))) := by
  induction l with
  | nil => rfl
  | cons n rest ih =>
    simp only [collectResults]
    rw [h n (List.mem_cons_self n rest)]
    rw [ih (fun m hm => h m (List.mem_cons_of_mem n hm))]
    rfl

/-- C2: for an open multipart upload with `k` already-uploaded parts,
numbered 1..k, of fixed part size `p` (all but possibly the last equal to
`p`, whose maximum is `p`), and a local file of `S` bytes with at least `k`
parts' worth of data, `resume_multipart_upload` submits exactly
ceil(S/p) − k further part uploads (numbered k+1..ceil(S/p)) and builds a
completion list of all ceil(S/p) parts in ascending part-number order —
whatever order the concurrently uploaded parts finish in, as long as every
submitted part finishes. -/
theorem resume_uploads_missing_parts_in_order (parts : List MpuPart) (S p k : Nat)
    (etagOf : Nat → Nat) (order : List Nat)
    (hsorted : sortPartsByNumber parts = parts)
    (hk : parts.length = k)
    (hnums : parts.map MpuPart.partNumber = List.range' 1 k)
    (hmax : (parts.map MpuPart.size).foldl Nat.max 0 = p)
    (hfull : parts.dropLast.all (fun part => part.size = p) = true)
    (hp : 0 < p)
    (hkle : k ≤ (S + p - 1) / p)
    (horder : ∀ n ∈ List.range' (k + 1) ((S + p - 1) / p - k), n ∈ order) :
    resume_multipart_body parts S etagOf order
        = .ok { completionParts := parts.map (fun q => (q.partNumber, q.eTag))
                  ++ (List.range' (k + 1) ((S + p - 1) / p - k)).map
                      (fun n => (n, etagOf n)),
                uploadsSubmitted := List.range' (k + 1) ((S + p - 1) / p - k) } ∧
      (parts.map (fun q => (q.partNumber, q.eTag))
          ++ (List.range' (k + 1) ((S + p - 1) / p - k)).map
              (fun n => (n, etagOf n))).map Prod.fst
        = List.range' 1 ((S + p - 1) / p) ∧
      (List.range' (k + 1) ((S + p - 1) / p - k)).length = (S + p - 1) / p - k := by
  refine ⟨?_, ?_, by rw [List.length_range']⟩
  · simp only [resume_multipart_body]
    rw [hsorted, hk, hmax]
    rw [if_neg (by omega)]
    rw [if_neg (by simp [hfull])]
    rw [collectResults_all _ etagOf _ (fun n hn =>
      futureResult_runExecutor _ etagOf order n hn (horder n hn))]
  · rw [List.map_append, List.map_map, List.map_map]
    have h1 : (parts.map (Prod.fst ∘ fun q => (q.partNumber, q.eTag)))
        = List.range' 1 k := by
      rw [show (Prod.fst ∘ fun (q : MpuPart) => (q.partNumber, q.eTag))
          = MpuPart.partNumber from rfl]
      exact hnums
    have h2 : ((List.range' (k + 1) ((S + p - 1) / p - k)).map
        (Prod.fst ∘ fun n => (n, etagOf n))) = List.range' (k + 1) ((S + p - 1) / p - k) := by
      rw [show (Prod.fst ∘ fun (n : Nat) => (n, etagOf n)) = id from rfl, List.map_id]
    rw [h1, h2]
    have := List.range'_append 1 k ((S + p - 1) / p - k) 1
    rw [Nat.one_mul] at this
    rw [show k + 1 = 1 + k from by omega] at *
    rw [this, show (S + p - 1) / p - k + k = (S + p - 1) / p from by omega]

/-- Witness for `resume_uploads_missing_parts_in_order`: the spec's scenario
scaled down — part size 5, local file of 12 bytes, one already-uploaded part
(number 1, size 5), so ceil(12/5) = 3 parts total and exactly parts 2 and 3
are uploaded; the schedule finishes part 3 before part 2, yet the completion
list is in ascending part order. -/
theorem resume_uploads_missing_parts_in_order_witness :
    resume_multipart_body [⟨1, 5, 100⟩] 12 (fun n => 10 * n) [3, 2]
        = .ok { completionParts := [(1, 100), (2, 20), (3, 30)],
                uploadsSubmitted := [2, 3] } :=
  (resume_uploads_missing_parts_in_order [⟨1, 5, 100⟩] 12 5 1 (fun n => 10 * n)
    [3, 2] (by decide) (by decide) (by decide) (by decide) (by decide) (by decide)
    (by decide) (by decide)).1

/-- Network-visible actions of the multipart resume procedure. -/
inductive MpEvent where
  | getMpu
  | abortMpu
  | fallbackUpload
  | uploadPart (n : Nat)
  | complete
  | deleteObject
  deriving DecidableEq, Repr

/-- The remote store's state for one resume attempt: the parts lists of the
open multipart uploads matching the key (in listing order), and the object
size that `complete` will report afterwards. -/
structure MpAttempt where
  mpus : List (List MpuPart)
  completedSize : Nat

/-- Model of `get_mpu` from `S3MP/multipart_uploads.py`: iterate the open uploads,
aborting those with no parts, and return the first with at least one part.
The event list records the aborts issued. -/
def getMpuGo : List (List MpuPart) → Option (List MpuPart) × List MpEvent
  | [] => (none, [])
  | parts :: rest =>
    if parts.length = 0 then
      let r := getMpuGo rest
      (r.1, MpEvent.abortMpu :: r.2)
    else (some parts, [])

/-- How a run of the resume procedure ends. -/
inductive TraceEnd where
  | finished
  | raised (msg : Str)
  | outOfFuel
  deriving DecidableEq, Repr

/-- Model of `resume_multipart_upload` as a trace machine.  Attempt `i` discovers an
open upload (`get_mpu`); with none found it falls back to
`upload_from_mirror_if_not_present`; otherwise it uploads the missing parts,
completes, and compares the reported object size with the local size `S`:
when they differ by more than one megabyte it deletes the object and
re-invokes the whole procedure.  The code has no retry cap; the fuel only
bounds this model, `outOfFuel` marking a run that was still retrying. -/
def resume_trace (S : Nat) (env : Nat → MpAttempt) :
    Nat → Nat → List MpEvent × TraceEnd
  | 0, _ => ([], .outOfFuel)
  | fuel + 1, i =>
    let r := getMpuGo (env i).mpus
    match r.1 with
    | none => (MpEvent.getMpu :: r.2 ++ [MpEvent.fallbackUpload], .finished)
    | some parts =>
      let sorted := sortPartsByNumber parts
      let k := sorted.length
      let p := (sorted.map MpuPart.size).foldl Nat.max 0
      if p = 0 then (MpEvent.getMpu :: r.2, .raised ("ZeroDivisionError".data))
      else if ¬ (sorted.dropLast.all (fun part => part.size = p)) then
        (MpEvent.getMpu :: r.2, .raised ("AssertionError".data))
      else
        let nTotal := (S + p - 1) / p
        let evs := MpEvent.getMpu :: r.2
          ++ (List.range' (k + 1) (nTotal - k)).map MpEvent.uploadPart
          ++ [MpEvent.complete]
        if ((S : Int) - ((env i).completedSize : Int)).natAbs > MB then
          let rest := resume_trace S env fuel (i + 1)
          (evs ++ MpEvent.deleteObject :: rest.1, rest.2)
        else (evs, .finished)

theorem resume_trace_restart_eq (S : Nat) (env : Nat → MpAttempt) (fuel i : Nat)
    (parts : List MpuPart) (aborts : List MpEvent)
    (hmpu : getMpuGo (env i).mpus = (some parts, aborts))
    (hp : (((sortPartsByNumber parts).map MpuPart.size).foldl Nat.max 0) ≠ 0)
    (hassert : (sortPartsByNumber parts).dropLast.all
      (fun part => part.size = ((sortPartsByNumber parts).map MpuPart.size).foldl Nat.max 0)
      = true)
    (hmismatch : ((S : Int) - ((env i).completedSize : Int)).natAbs > MB) :
    resume_trace S env (fuel + 1) i
      = ((MpEvent.getMpu :: aborts
          ++ (List.range' ((sortPartsByNumber parts).length + 1)
              ((S + ((sortPartsByNumber parts).map MpuPart.size).foldl Nat.max 0 - 1)
                  / ((sortPartsByNumber parts).map MpuPart.size).foldl Nat.max 0
                - (sortPartsByNumber parts).length)).map MpEvent.uploadPart
          ++ [MpEvent.complete])
          ++ MpEvent.deleteObject :: (resume_trace S env fuel (i + 1)).1,
        (resume_trace S env fuel (i + 1)).2) := by
  simp only [resume_trace]
  rw [hmpu]
  simp only []
  rw [if_neg hp, if_neg (by simp [hassert]), if_pos hmismatch]

theorem resume_trace_starts_with_getMpu (S : Nat) (env : Nat → MpAttempt)
    (fuel i : Nat) : ((resume_trace S env (fuel + 1) i).1).head? = some MpEvent.getMpu := by
  simp only [resume_trace]
  cases (getMpuGo (env i).mpus).1 with
  | none => rfl
  | some parts =>
    dsimp only
    split
    · rfl
    · split
      · rfl
      · split <;> rfl

theorem count_getMpu_uploadParts (l : List Nat) :
    (l.map MpEvent.uploadPart).count MpEvent.getMpu = 0 := by
  rw [List.count_eq_zero]
  intro h
  obtain ⟨n, _, hn⟩ := List.mem_map.mp h
  exact MpEvent.noConfusion hn

theorem resume_trace_unbounded (S : Nat) :
    ∀ n i, (resume_trace S (fun _ => ⟨[[⟨1, 5, 100⟩]], S + MB + 1⟩) n i).1.count
        MpEvent.getMpu = n ∧
      (resume_trace S (fun _ => ⟨[[⟨1, 5, 100⟩]], S + MB + 1⟩) n i).2
        = TraceEnd.outOfFuel := by
  intro n
  induction n with
  | zero => intro i; exact ⟨rfl, rfl⟩
  | succ m ih =>
    intro i
    have hstep := resume_trace_restart_eq S (fun _ => ⟨[[⟨1, 5, 100⟩]], S + MB + 1⟩)
      m i [⟨1, 5, 100⟩] [] rfl (by decide) (by decide)
      (by push_cast; simp [MB]; omega)
    rw [hstep]
    constructor
    · simp [List.count_append, List.count_cons, count_getMpu_uploadParts, (ih (i + 1)).1]
    · exact (ih (i + 1)).2

/-- C3: after the completion call, if the completed object's reported size
differs from the local file size by more than one megabyte, the object is
deleted and the whole resume procedure is re-invoked from the open-upload
discovery step — the continuation's first event is `get_mpu` — and there is
no bound on the number of retries: under an environment that always reports
a mismatching size, every fuel `n` yields `n` discovery calls and a run that
is still retrying. -/
theorem resume_integrity_mismatch_restarts :
    (∀ (S : Nat) (env : Nat → MpAttempt) (fuel i : Nat) (parts : List MpuPart)
        (aborts : List MpEvent),
      getMpuGo (env i).mpus = (some parts, aborts) →
      (((sortPartsByNumber parts).map MpuPart.size).foldl Nat.max 0) ≠ 0 →
      ((sortPartsByNumber parts).dropLast.all
        (fun part => part.size
          = ((sortPartsByNumber parts).map MpuPart.size).foldl Nat.max 0) = true) →
      ((S : Int) - ((env i).completedSize : Int)).natAbs > MB →
      resume_trace S env (fuel + 1) i
        = ((MpEvent.getMpu :: aborts
            ++ (List.range' ((sortPartsByNumber parts).length + 1)
                ((S + ((sortPartsByNumber parts).map MpuPart.size).foldl Nat.max 0 - 1)
                    / ((sortPartsByNumber parts).map MpuPart.size).foldl Nat.max 0
                  - (sortPartsByNumber parts).length)).map MpEvent.uploadPart
            ++ [MpEvent.complete])
            ++ MpEvent.deleteObject :: (resume_trace S env fuel (i + 1)).1,
          (resume_trace S env fuel (i + 1)).2)) ∧
      (∀ (S : Nat) (env : Nat → MpAttempt) (fuel i : Nat),
        ((resume_trace S env (fuel + 1) i).1).head? = some MpEvent.getMpu) ∧
      (∀ (S : Nat), ∀ n i,
        (resume_trace S (fun _ => ⟨[[⟨1, 5, 100⟩]], S + MB + 1⟩) n i).1.count
            MpEvent.getMpu = n ∧
          (resume_trace S (fun _ => ⟨[[⟨1, 5, 100⟩]], S + MB + 1⟩) n i).2
            = TraceEnd.outOfFuel) :=
  ⟨resume_trace_restart_eq, resume_trace_starts_with_getMpu, resume_trace_unbounded⟩

/-- Witness for `resume_integrity_mismatch_restarts`: a 12-byte local file
with one uploaded part of size 5 and a completed-object size off by more
than a megabyte — the single-attempt trace uploads parts 2 and 3, completes,
deletes the object, and runs out of fuel mid-retry. -/
theorem resume_integrity_mismatch_restarts_witness :
    resume_trace 12 (fun _ => ⟨[[⟨1, 5, 100⟩]], 12 + MB + 1⟩) 1 0
      = ([MpEvent.getMpu, MpEvent.uploadPart 2, MpEvent.uploadPart 3,
          MpEvent.complete, MpEvent.deleteObject], TraceEnd.outOfFuel) := by
  rw [resume_integrity_mismatch_restarts.1 12 (fun _ => ⟨[[⟨1, 5, 100⟩]], 12 + MB + 1⟩)
    0 0 [⟨1, 5, 100⟩] [] rfl (by decide) (by decide) (by decide)]
  decide

/-! ## Prefix queries and key matching
(`S3MP/prefix_queries.py`, `S3MP/keys.py`) -/

/-- Model of `get_prefix_paginator`: append a `/` to a nonempty folder key that does
not already end in one; this is the prefix the listing is issued for. -/
def paginatorPrefix (folderKey : Str) : Str :=
  if folderKey ≠ [] ∧ folderKey.getLast? ≠ some '/' then folderKey ++ ['/'] else folderKey

/-- Python `s.replace(pat, "")` (all occurrences removed; with an empty
pattern the string is returned unchanged, as `s.replace("", "") == s`).
The fuel is the string's length. -/
def replaceAllGo (pat : Str) : Nat → Str → Str
  | _, [] => []
  | 0, s => s
  | fuel + 1, c :: cs =>
    if pat.isPrefixOf (c :: cs) then replaceAllGo pat fuel ((c :: cs).drop pat.length)
    else c :: replaceAllGo pat fuel cs

/-- Python `s.replace(pat, "")`. -/
def replaceAll (pat s : Str) : Str :=
  if pat = [] then s else replaceAllGo pat s.length s

example : replaceAll ("ab".data) "xabyab".data = "xy".data := by decide
example : replaceAll ("".data) "xy".data = "xy".data := by decide

/-- Python `pat in s` on strings: substring containment. -/
def isSubstring (pat : Str) : Str → Bool
  | [] => decide (pat = [])
  | c :: rest => pat.isPrefixOf (c :: rest) || isSubstring pat rest

/-- The filter of `get_files_within_folder` / `get_folders_within_folder`:
`if key_filter and key_filter not in obj: continue` — a `None` or empty
filter passes everything, otherwise substring containment. -/
def passesFilter (filterName : Option Str) (rel : Str) : Bool :=
  match filterName with
  | none => true
  | some [] => true
  | some f => isSubstring f rel

/-- Model of `get_files_within_folder` from `S3MP/prefix_queries.py`: the `Contents`
keys of the paginated listing, with the folder key (without the appended
slash) removed from each, filtered by substring. -/
def get_files_within_folder (st : Store) (folderKey : Str) (filterName : Option Str) :
    List Str :=
  (mergedListing st (paginatorPrefix folderKey)).filterMap fun e =>
    match e with
    | .content key _ =>
      let rel := replaceAll folderKey key
      if passesFilter filterName rel then some rel else none
    | .commonPfx _ => none

/-- Model of `get_folders_within_folder` from `S3MP/prefix_queries.py`: likewise for
the `CommonPrefixes` entries. -/
def get_folders_within_folder (st : Store) (folderKey : Str) (filterName : Option Str) :
    List Str :=
  (mergedListing st (paginatorPrefix folderKey)).filterMap fun e =>
    match e with
    | .content _ _ => none
    | .commonPfx key =>
      let rel := replaceAll folderKey key
      if passesFilter filterName rel then some rel else none

/-- Model of `unpack_s3_obj_generator` from `S3MP/keys.py`: one listing call (whose
paginator prefix is returned for call accounting), producing
`f"{path}{obj}"` for every matching object. -/
def unpack_s3_obj_generator (st : Store) (path : Str) (filterName : Option Str)
    (isFile : Bool) : List Str × Str :=
  let objs := if isFile then get_files_within_folder st path filterName
    else get_folders_within_folder st path filterName
  (objs.map (fun o => path ++ o), paginatorPrefix path)

/-- Model of `get_filter_name` from `S3MP/keys.py`: for the first segment at the
given depth, its name if present, else its incomplete name; `none` when no
segment sits at that depth. -/
def get_filter_name (segments : List KeySegment) (d : Nat) : Option Str :=
  match segments.find? (fun s => s.depth = d) with
  | none => none
  | some s =>
    match s.name with
    | some nm => some nm
    | none => s.incompleteName

/-- One depth iteration of the `get_matching_s3_keys` loop: issue one
listing call per current path, chain the results; the second component
accumulates the paginator prefixes of the listing calls issued. -/
def matchingStep (st : Store) (sorted : List KeySegment) (maxDepth : Nat)
    (acc : List Str × List Str) (d : Nat) : List Str × List Str :=
  let filterName := get_filter_name sorted d
  let fileFlag := decide (d = maxDepth) && (sorted.getLastD ⟨0, none, false, none⟩).isFile
  let results := acc.1.map (fun p => unpack_s3_obj_generator st p filterName fileFlag)
  ((results.map Prod.fst).flatten, acc.2 ++ results.map Prod.snd)

/-- Model of `get_matching_s3_keys` from `S3MP/keys.py`: find the longest unbroken
prefix of (truthy-)named segments, then expand depth by depth.  `none`
models a raised exception (`segments[-1]` on an empty list, or `"/".join`
over a `None` name inside the initial prefix).  Returns the matching keys
and the listing-call log. -/
def get_matching_s3_keys (st : Store) (segments : List KeySegment) :
    Option (List Str × List Str) :=
  match sortByDepth segments with
  | [] => none
  | s0 :: srest =>
    let sorted := s0 :: srest
    let maxDepth := (sorted.getLast (List.cons_ne_nil s0 srest)).depth
    let segmentDepths := sorted.filterMap (fun s =>
      match s.name with
      | some nm => if nm = [] then none else some s.depth
      | none => none)
    let emptyDepths := (List.range (maxDepth + 1)).filter (fun d => d ∉ segmentDepths)
    let prefixLen := match emptyDepths with
      | [] => sorted.length
      | d :: _ => d
    match (sorted.take prefixLen).mapM KeySegment.name with
    | none => none
    | some names =>
      some ((List.range' prefixLen (maxDepth + 1 - prefixLen)).foldl
        (matchingStep st sorted maxDepth) ([joinSlash names], []))

/-- Model of `sync_dfs_matching_key_gen` from `S3MP/keys.py`, recursive part: list at
the current path, yield the paths when at the deepest segment's depth, stop
when nothing was listed, otherwise recurse into every listed path.  Returns
the yielded keys and the listing-call log; `none` is fuel exhaustion
(recursion limit). -/
def syncDfsGo (st : Store) (sorted : List KeySegment) :
    Nat → Str → Nat → Option (List Str × List Str)
  | 0, _, _ => none
  | fuel + 1, path, d =>
    let lastSeg := sorted.getLastD ⟨0, none, false, none⟩
    let filterName := get_filter_name sorted d
    let fileFlag := decide (d = lastSeg.depth) && lastSeg.isFile
    let r := unpack_s3_obj_generator st path filterName fileFlag
    let yielded := if d = lastSeg.depth then r.1 else []
    if r.1.length = 0 then some (yielded, [r.2])
    else
      r.1.foldlM
        (fun acc p => (syncDfsGo st sorted fuel p (d + 1)).map
          (fun res => (acc.1 ++ res.1, acc.2 ++ res.2)))
        (yielded, [r.2])

/-- Model of `sync_dfs_matching_key_gen` entry point: sort the segments, build the
initial path and depth with `build_s3_key` (which raises on a `None` name),
then walk depth-first. -/
def sync_dfs_matching_key_gen (st : Store) (fuel : Nat) (segments : List KeySegment) :
    Option (List Str × List Str) :=
  match build_s3_key (sortByDepth segments) with
  | none => none
  | some (path, depth) => syncDfsGo st (sortByDepth segments) fuel path depth

example : get_matching_s3_keys [⟨("root/a/f".data), 1, []⟩]
      [⟨0, some ("root".data), false, none⟩, ⟨1, none, false, none⟩]
    = some ([("root/a/".data)], [("root/".data)]) := by decide

example : get_matching_s3_keys [⟨("root/a/f".data), 1, []⟩]
      [⟨0, some ("root".data), false, none⟩, ⟨1, none, false, none⟩,
        ⟨2, none, true, none⟩]
    = some ([("root/a/f".data)], [("root/".data), ("root/a/".data)]) := by decide

/-- The C9 scenario: segments `[{0,"root"}, {1,"missing"}, {2,unconstrained}]`
with nothing under `root` matching `missing`. -/
def pruningSegments : List KeySegment :=
  [⟨0, some ("root".data), false, none⟩, ⟨1, some ("missing".data), false, none⟩,
    ⟨2, none, false, none⟩]

/-- The C9 scenario store: only `root/other/f` exists. -/
def pruningStore : Store := [⟨"root/other/f".data, 1, []⟩]

/-- C9 counterexample: on the scenario segments, the depth-first generator
variant does not return the empty set after one listing call — it raises
before any listing call, because `build_s3_key` joins the unconstrained
depth-2 segment's `None` name (`TypeError`).  `get_matching_s3_keys`, by
contrast, returns the empty set after exactly one listing call. -/
theorem sync_dfs_unconstrained_segment_raises :
    sync_dfs_matching_key_gen pruningStore 10 pruningSegments = none ∧
      get_matching_s3_keys pruningStore pruningSegments
        = some ([], ["root/missing/".data]) := by
  refine ⟨by decide, by decide⟩

/-- C9 (amended): in `get_matching_s3_keys`, once a depth yields zero
matching paths no listing call is issued at any deeper depth (the remaining
loop iterations leave the empty path set and the call log untouched); on the
scenario `[{0,"root"}, {1,"missing"}, {2,unconstrained}]` with nothing under
`root` matching `missing`, the result is the empty set after exactly one
listing call, for the depth-1 path `root/missing` (none at depth 2).  The
depth-first generator variants also stop at a depth with zero listings, but
on this very scenario they instead raise while building the initial key
(joining the unconstrained segment's `None` name). -/
theorem get_matching_prunes_empty_depths :
    (∀ (st : Store) (sorted : List KeySegment) (maxDepth : Nat)
        (depths : List Nat) (log : List Str),
      depths.foldl (matchingStep st sorted maxDepth) ([], log) = ([], log)) ∧
      (∀ (st : Store) (sorted : List KeySegment) (fuel : Nat) (path : Str) (d : Nat),
        (unpack_s3_obj_generator st path (get_filter_name sorted d)
            (decide (d = (sorted.getLastD ⟨0, none, false, none⟩).depth)
              && (sorted.getLastD ⟨0, none, false, none⟩).isFile)).1 = [] →
        syncDfsGo st sorted (fuel + 1) path d
          = some ((if d = (sorted.getLastD ⟨0, none, false, none⟩).depth
                then (unpack_s3_obj_generator st path (get_filter_name sorted d)
                  (decide (d = (sorted.getLastD ⟨0, none, false, none⟩).depth)
                    && (sorted.getLastD ⟨0, none, false, none⟩).isFile)).1
                else []),
              [(unpack_s3_obj_generator st path (get_filter_name sorted d)
                (decide (d = (sorted.getLastD ⟨0, none, false, none⟩).depth)
                  && (sorted.getLastD ⟨0, none, false, none⟩).isFile)).2])) ∧
      get_matching_s3_keys pruningStore pruningSegments
        = some ([], ["root/missing/".data]) := by
  refine ⟨?_, ?_, by decide⟩
  · intro st sorted maxDepth depths log
    induction depths generalizing log with
    | nil => rfl
    | cons d rest ih =>
      rw [List.foldl_cons]
      have hstep : matchingStep st sorted maxDepth ([], log) d = ([], log) := by
        unfold matchingStep
        simp
      rw [hstep]
      exact ih log
  · intro st sorted fuel path d hempty
    unfold syncDfsGo
    rw [if_pos (by rw [hempty]; rfl)]

/-- Witness for `get_matching_prunes_empty_depths` at concrete inputs: a
two-depth fold over empty paths issues no listing calls, and a depth-first
step with an empty listing stops with just that one call logged. -/
theorem get_matching_prunes_empty_depths_witness :
    [5, 6].foldl (matchingStep pruningStore pruningSegments 2) ([], ["x".data])
        = ([], ["x".data]) ∧
      syncDfsGo pruningStore pruningSegments 3 ("root/missing".data) 2
        = some ([], ["root/missing/".data]) :=
  ⟨get_matching_prunes_empty_depths.1 pruningStore pruningSegments 2 [5, 6] ["x".data],
    by
      have h := get_matching_prunes_empty_depths.2.1 pruningStore pruningSegments 2
        "root/missing".data 2 (by decide)
      rw [h]
      decide⟩

end S3MP
